import Mathlib

/-!
Verification of the `iioon` i18n derive crate.

The crate turns a folder of per-language TOML translation documents into a
strongly typed accessor API.  The design copy of the generator lives in
`crates/iioon-derive/src/i18n/mod.rs` and `crates/iioon-derive/src/i18n/lang.rs`;
`crates/iioon-derive/src/lib.rs` holds a legacy duplicate whose structural
checker `check_tables` is also embedded below.  File IO and TOML parsing are
external collaborators: the model receives already parsed documents.

Machine strings are Lean `String`s; Rust byte-wise comparisons on UTF-8
strings agree with the character-wise comparisons used here.
-/

set_option maxRecDepth 8192

namespace Iioon

/-- ASCII lowercasing of one character, as used by Rust's
`eq_ignore_ascii_case` and by case conversion. -/
def asciiLower (c : Char) : Char :=
  if 'A' ≤ c && c ≤ 'Z' then Char.ofNat (c.toNat + 32) else c

/-- Model of Rust `str::eq_ignore_ascii_case`: equality after ASCII
lowercasing of both sides. -/
def eqIgnoreAsciiCase (s t : String) : Bool :=
  s.data.map asciiLower == t.data.map asciiLower

def isUpperA (c : Char) : Bool := 'A' ≤ c && c ≤ 'Z'

def isLowerA (c : Char) : Bool := 'a' ≤ c && c ≤ 'z'

def toUpperA (c : Char) : Char :=
  if isLowerA c then Char.ofNat (c.toNat - 32) else c

/-- Word delimiters of the `convert_case` crate's default boundary set. -/
def isDelim (c : Char) : Bool := c == '_' || c == '-' || c == ' '

/-- Split a character list into case-conversion words, following the
`convert_case` crate's default boundaries: delimiters (underscore, hyphen,
space, which are dropped), a lowercase letter followed by an uppercase one,
and the acronym boundary (upper-upper-lower splits between the two uppers).
Digit boundaries are not modelled; no input considered here contains digits
adjacent to case changes.  The first argument is the current word, reversed. -/
def splitWordsAux : List Char → List Char → List (List Char)
  | acc, [] => [acc.reverse]
  | acc, c :: rest =>
    if isDelim c then acc.reverse :: splitWordsAux [] rest
    else
      match acc with
      | [] => splitWordsAux [c] rest
      | p :: _ =>
        if isLowerA p && isUpperA c then
          acc.reverse :: splitWordsAux [c] rest
        else if isUpperA p && isUpperA c &&
            (match rest with | r :: _ => isLowerA r | [] => false) then
          acc.reverse :: splitWordsAux [c] rest
        else splitWordsAux (c :: acc) rest

def splitWords (s : String) : List (List Char) :=
  (splitWordsAux [] s.data).filter (· ≠ [])

/-- Capitalization of one word: first character uppercased, rest lowercased. -/
def capWord : List Char → List Char
  | [] => []
  | c :: rest => toUpperA c :: rest.map asciiLower

/-- Model of `convert_case`'s `Case::Pascal` conversion. -/
def pascal (s : String) : String :=
  String.mk ((splitWords s).map capWord).flatten

/-- Model of `convert_case`'s `Case::Snake` conversion. -/
def snake (s : String) : String :=
  String.intercalate "_" ((splitWords s).map (fun w => String.mk (w.map asciiLower)))

/-- Model of `convert_case`'s `Case::Constant` conversion (used by the legacy
copy in `lib.rs` for enum members). -/
def constantCase (s : String) : String :=
  String.intercalate "_" ((splitWords s).map (fun w => String.mk (w.map toUpperA)))

def lbrace : Char := Char.ofNat 123

def rbrace : Char := Char.ofNat 125

/-- Character class of the placeholder regex `ARGUMENT_RE`, literally
`[a-zA-z\d_]`: note the source writes `A-z`, not `A-Z`, so the class also
contains the ASCII characters between `Z` and `a` (bracket, backslash,
caret, underscore, backtick).  `\d` is modelled as an ASCII digit; the
documents considered here contain no non-ASCII digits. -/
def argChar (c : Char) : Bool :=
  (isLowerA c) || ('A' ≤ c && c ≤ 'z') || c.isDigit || c == '_'

mutual

/-- Left-to-right scan of `ARGUMENT_RE`, the regex `\{(?<arg>[a-zA-z\d_]+)\}`,
collecting every match's capture in order (`captures_iter`), duplicates
included.  A failed match attempt resumes one position after the opening
brace, exactly as the regex engine does. -/
def scanArgs : List Char → List String
  | [] => []
  | c :: rest => if c == lbrace then scanOpen [] rest else scanArgs rest

/-- State after an opening brace: `acc` holds the identifier characters read
so far, reversed. -/
def scanOpen (acc : List Char) : List Char → List String
  | [] => []
  | c :: rest =>
    if argChar c then scanOpen (c :: acc) rest
    else if c == rbrace && !acc.isEmpty then
      String.mk acc.reverse :: scanArgs rest
    else if c == lbrace then scanOpen [] rest
    else scanArgs rest

end

/-- Placeholder occurrences of a template string, in first-to-last order,
duplicates included (the source's `ARGUMENT_RE.captures_iter`). -/
def argsOf (s : String) : List String := scanArgs s.data

/-- Strict identifier character class `[A-Za-z0-9_]`, as the specification
words the placeholder pattern. -/
def strictArgChar (c : Char) : Bool :=
  isLowerA c || isUpperA c || c.isDigit || c == '_'

mutual

/-- Extractor following the specification's words (pattern `{identifier}`
with `identifier` matching `[A-Za-z0-9_]+`), for comparison with the
source's `argsOf`. -/
def scanArgsSpec : List Char → List String
  | [] => []
  | c :: rest => if c == lbrace then scanOpenSpec [] rest else scanArgsSpec rest

def scanOpenSpec (acc : List Char) : List Char → List String
  | [] => []
  | c :: rest =>
    if strictArgChar c then scanOpenSpec (c :: acc) rest
    else if c == rbrace && !acc.isEmpty then
      String.mk acc.reverse :: scanArgsSpec rest
    else if c == lbrace then scanOpenSpec [] rest
    else scanArgsSpec rest

end

def argsOfSpec (s : String) : List String := scanArgsSpec s.data

/-- TOML values as the generator distinguishes them: strings, tables, and
everything else (integers, floats, booleans, datetimes, arrays), collapsed
to a numbered kind so that `same_type` can still tell the kinds apart. -/
inductive Value where
  | str (s : String)
  | table (t : List (String × Value))
  | other (kind : Nat)

abbrev Toml := List (String × Value)

/-- Lookup in a TOML table (`toml::map::Map::get`).  Documents produced by
the TOML parser have unique keys, so taking the first match is exact. -/
def lookupT (t : Toml) (k : String) : Option Value :=
  (t.find? (fun e => e.1 == k)).map (·.2)

/-- Model of `toml::Value::same_type`: discriminant equality. -/
def Value.same_type : Value → Value → Bool
  | .str _, .str _ => true
  | .table _, .table _ => true
  | .other a, .other b => a == b
  | _, _ => false

def Value.asStr : Value → Option String
  | .str s => some s
  | _ => none

def Value.asTable : Value → Option Toml
  | .table t => some t
  | _ => none

mutual

/-- Model of `check_tables` from the legacy copy (`lib.rs`): every key of
`left` must exist in `right` with the same value kind, recursively through
tables; extra keys of `right` are never examined. -/
def check_tables : Toml → Toml → Bool
  | [], _ => true
  | (k, v) :: rest, right =>
    (match lookupT right k with
     | none => false
     | some w => check_value v w) && check_tables rest right

/-- One key's check inside `check_tables`: kind equality, then recursion
when both sides are tables. -/
def check_value : Value → Value → Bool
  | .table t, .table rt => check_tables t rt
  | v, w => Value.same_type v w

end

def keysNodup (t : Toml) : Bool :=
  match t with
  | [] => true
  | (k, _) :: rest => !(rest.any (fun e => e.1 == k)) && keysNodup rest

mutual

/-- Well-formedness of a parsed TOML value: every table has pairwise
distinct keys, recursively.  The TOML parser guarantees this. -/
def wfV : Value → Bool
  | .table t => keysNodup t && wfEntries t
  | _ => true

def wfEntries : Toml → Bool
  | [] => true
  | (_, v) :: rest => wfV v && wfEntries rest

end

/-- Well-formedness of a whole document. -/
def wfT (t : Toml) : Bool := keysNodup t && wfEntries t

mutual

/-- Nesting depth of a value (tables only). -/
def depthV : Value → Nat
  | .table t => depthL t + 1
  | _ => 0

def depthL : Toml → Nat
  | [] => 0
  | (_, v) :: rest => max (depthV v) (depthL rest)

end

mutual

/-- Success criterion of the design copy's generator walk: for every key of
the reference table whose value is a string or a table, the other document
must hold that key with the same kind, recursively through tables.  Keys
whose reference value is of any other kind are never checked. -/
def coversT : Toml → Toml → Bool
  | [], _ => true
  | (k, v) :: rest, d => coversE k v d && coversT rest d

/-- One reference entry's requirement on another language's table. -/
def coversE (k : String) : Value → Toml → Bool
  | .other _, _ => true
  | .str _, d =>
    (match lookupT d k with
     | some (.str _) => true
     | _ => false)
  | .table t, d =>
    (match lookupT d k with
     | some (.table dt) => coversT t dt
     | _ => false)

end

/-- Byte-lexicographic strict comparison of character lists; on UTF-8
strings this coincides with Rust's derived `Ord` on `String` (byte order
equals codepoint order). -/
def charsLt : List Char → List Char → Bool
  | [], [] => false
  | [], _ :: _ => true
  | _ :: _, [] => false
  | a :: as, b :: bs =>
    if a = b then charsLt as bs
    else decide (a.toNat < b.toNat)

/-- The strict order of Rust's derived `Ord` on `String`, as the
`BTreeMap<Lang, _>` compares keys. -/
def strLt (a b : String) : Bool := charsLt a.data b.data

theorem charToNat_inj {a b : Char} (h : a.toNat = b.toNat) : a = b := by
  have h2 : a.val = b.val := by
    unfold Char.toNat at h
    exact UInt32.ext h
  exact Char.eq_of_val_eq h2

theorem charsLt_irrefl : ∀ l, charsLt l l = false
  | [] => rfl
  | a :: as => by simp [charsLt, charsLt_irrefl as]

theorem charsLt_trans :
    ∀ {l1 l2 l3 : List Char}, charsLt l1 l2 = true → charsLt l2 l3 = true →
      charsLt l1 l3 = true := by
  intro l1
  induction l1 with
  | nil =>
    intro l2 l3 h12 h23
    cases l2 with
    | nil => simp [charsLt] at h12
    | cons b bs =>
      cases l3 with
      | nil => simp [charsLt] at h23
      | cons c cs => rfl
  | cons a as ih =>
    intro l2 l3 h12 h23
    cases l2 with
    | nil => simp [charsLt] at h12
    | cons b bs =>
      cases l3 with
      | nil => simp [charsLt] at h23
      | cons c cs =>
        simp only [charsLt] at h12 h23 ⊢
        by_cases hab : a = b
        · subst hab
          rw [if_pos rfl] at h12
          by_cases hac : a = c
          · subst hac
            rw [if_pos rfl] at h23 ⊢
            exact ih h12 h23
          · rw [if_neg hac] at h23 ⊢
            exact h23
        · rw [if_neg hab] at h12
          have hltab : a.toNat < b.toNat := of_decide_eq_true h12
          by_cases hbc : b = c
          · subst hbc
            rw [if_neg hab]
            exact h12
          · rw [if_neg hbc] at h23
            have hltbc : b.toNat < c.toNat := of_decide_eq_true h23
            have hltac : a.toNat < c.toNat := Nat.lt_trans hltab hltbc
            have hac : a ≠ c := by
              intro he
              have := congrArg Char.toNat he
              omega
            rw [if_neg hac]
            exact decide_eq_true hltac

theorem charsLt_eq_of_not :
    ∀ {l1 l2 : List Char}, charsLt l1 l2 = false → charsLt l2 l1 = false →
      l1 = l2 := by
  intro l1
  induction l1 with
  | nil =>
    intro l2 h12 _
    cases l2 with
    | nil => rfl
    | cons b bs => simp [charsLt] at h12
  | cons a as ih =>
    intro l2 h12 h21
    cases l2 with
    | nil => simp [charsLt] at h21
    | cons b bs =>
      simp only [charsLt] at h12 h21
      by_cases hab : a = b
      · subst hab
        rw [if_pos rfl] at h12 h21
        rw [ih h12 h21]
      · rw [if_neg hab] at h12
        rw [if_neg (fun he => hab he.symm)] at h21
        have h1 : ¬ a.toNat < b.toNat := by simpa using h12
        have h2 : ¬ b.toNat < a.toNat := by simpa using h21
        exact absurd (charToNat_inj (by omega)) hab

theorem strLt_irrefl (a : String) : strLt a a = false := charsLt_irrefl _

theorem strLt_trans {a b c : String} (h1 : strLt a b = true)
    (h2 : strLt b c = true) : strLt a c = true := charsLt_trans h1 h2

theorem strLt_asymm {a b : String} (h1 : strLt a b = true)
    (h2 : strLt b a = true) : False := by
  have := strLt_trans h1 h2
  rw [strLt_irrefl] at this
  cases this

theorem strLt_eq_of_not {a b : String} (h1 : strLt a b = false)
    (h2 : strLt b a = false) : a = b := by
  have h3 : a.data = b.data := charsLt_eq_of_not h1 h2
  cases a; cases b; simp_all

theorem strLt_true_of_ne {a b : String} (h1 : strLt a b = false)
    (h2 : a ≠ b) : strLt b a = true := by
  cases h3 : strLt b a with
  | true => rfl
  | false => exact absurd (strLt_eq_of_not h1 h3) h2

instance {ε α : Type} [DecidableEq ε] [DecidableEq α] :
    DecidableEq (Except ε α) := fun a b =>
  match a, b with
  | .error x, .error y =>
    if h : x = y then isTrue (by rw [h])
    else isFalse (by intro hc; cases hc; exact h rfl)
  | .ok x, .ok y =>
    if h : x = y then isTrue (by rw [h])
    else isFalse (by intro hc; cases hc; exact h rfl)
  | .error _, .ok _ => isFalse (by intro hc; cases hc)
  | .ok _, .error _ => isFalse (by intro hc; cases hc)

/-- Language identifier exactly as `lang.rs` defines it: a raw tag string,
with derived equality and ordering on that raw string (no normalization). -/
structure Lang where
  inner : String
deriving DecidableEq

/-- `Lang::new`: stores the raw tag unchanged. -/
def Lang.new (s : String) : Lang := ⟨s⟩

/-- `Lang::fn_name`: snake-case selector form. -/
def Lang.fn_name (l : Lang) : String := snake l.inner

/-- `Lang::enum_variant`: Pascal-case variant form. -/
def Lang.enum_variant (l : Lang) : String := pascal l.inner

/-- One `BTreeMap<Lang, _>::insert` step on a key-sorted association list:
keys are compared by the derived `Ord`, i.e. the raw tag string; an equal
key's value is replaced. -/
def btInsert (p : Lang × Toml) : List (Lang × Toml) → List (Lang × Toml)
  | [] => [p]
  | q :: rest =>
    if strLt p.1.inner q.1.inner then p :: q :: rest
    else if p.1.inner = q.1.inner then p :: rest
    else q :: btInsert p rest

/-- A `BTreeMap<Lang, Table>` built by inserting the given pairs in order. -/
def buildStore (l : List (Lang × Toml)) : List (Lang × Toml) :=
  l.foldl (fun m p => btInsert p m) []

/-- Lookup in the language store (`BTreeMap::get`). -/
def lookupL (store : List (Lang × Toml)) (l : Lang) : Option Toml :=
  (store.find? (fun e => e.1 == l)).map (·.2)

/-- Return type of a generated accessor method. -/
inductive Ret where
  | cow
  | named (n : String)
  | none
deriving DecidableEq

/-- Per-language return value of a generated leaf method: `format!` of the
template when the reference template has placeholders, the borrowed literal
otherwise. -/
inductive StrRet where
  | owned (template : String)
  | borrowed (s : String)
deriving DecidableEq

/-- Body of a generated method; `isEnum` records whether the match scrutinee
is `self` (the `Language` enum) or `self.0` (a nested accessor struct). -/
inductive Body where
  | strMatch (isEnum : Bool) (arms : List (String × StrRet))
  | ctor (isEnum : Bool) (n : String)
  | nothing
deriving DecidableEq

structure Method where
  name : String
  params : List String
  ret : Ret
  body : Body
deriving DecidableEq

/-- One generated type together with its `impl` block; `isStruct` is the
`new_struct` flag (a nested accessor struct is declared, the root `Language`
enum is not declared here). -/
structure GenItem where
  tyName : String
  isStruct : Bool
  methods : List Method
deriving DecidableEq

/-- Name of a nested accessor type: the parent type name (if any) and the
Pascal-cased key joined by `"__"`, as `generate_enum_impl` builds
`new_struct_name`. -/
def childName (sn : Option String) (k : String) : String :=
  match sn with
  | Option.none => pascal k
  | some p => p ++ "__" ++ pascal k

/-- The per-language match-arm loop of `generate_enum_impl` for a string
key `k`: look the language up, fetch the key, require a string. -/
def collectArms (store : List (Lang × Toml)) (k : String) (hasArgs : Bool) :
    List Lang → Except String (List (String × StrRet))
  | [] => .ok []
  | lang :: rest =>
    match lookupL store lang with
    | Option.none => .error ("invalid language " ++ lang.inner)
    | some d =>
      match lookupT d k with
      | Option.none => .error ("invalid string key " ++ k)
      | some w =>
        match w.asStr with
        | Option.none => .error ("invalid string field " ++ k)
        | some s =>
          match collectArms store k hasArgs rest with
          | .error e => .error e
          | .ok arms =>
            .ok ((lang.enum_variant,
                  if hasArgs then StrRet.owned s else StrRet.borrowed s) :: arms)

/-- The per-language loop of `generate_enum_impl` for a table key `k`:
look the language up, fetch the key, require a table; yields the pairs that
are inserted into `new_map`. -/
def collectTbls (store : List (Lang × Toml)) (k : String) :
    List Lang → Except String (List (Lang × Toml))
  | [] => .ok []
  | lang :: rest =>
    match lookupL store lang with
    | Option.none => .error ("invalid language " ++ lang.inner)
    | some d =>
      match lookupT d k with
      | Option.none => .error ("invalid table key " ++ k)
      | some w =>
        match w.asTable with
        | Option.none => .error ("invalid table field " ++ k)
        | some dt =>
          match collectTbls store k rest with
          | .error e => .error e
          | .ok tl => .ok ((lang, dt) :: tl)

/-- The `for (key, val) in first_lang` loop of `generate_enum_impl`,
processing the reference table's entries in order.  `recurse` is the
recursive `generate_enum_impl` call (fuel-indexed by the caller).  Keys of
kinds other than string and table fall through the match and still emit a
method with no body and no return type, as the source does. -/
def genEntries (langs : List Lang) (store : List (Lang × Toml))
    (sn : Option String) (isEnum : Bool)
    (recurse : List (Lang × Toml) → Option String → Bool → Bool →
      Except String (List GenItem)) :
    Toml → Except String (List Method × List GenItem)
  | [] => .ok ([], [])
  | (k, Value.str s) :: rest =>
    match collectArms store k (!(argsOf s).isEmpty) langs with
    | .error e => .error e
    | .ok arms =>
      match genEntries langs store sn isEnum recurse rest with
      | .error e => .error e
      | .ok (ms, ex) =>
        .ok (⟨snake k, argsOf s, Ret.cow, Body.strMatch isEnum arms⟩ :: ms, ex)
  | (k, Value.table _) :: rest =>
    match collectTbls store k langs with
    | .error e => .error e
    | .ok pairs =>
      match recurse (buildStore pairs) (some (childName sn k)) false true with
      | .error e => .error e
      | .ok nested =>
        match genEntries langs store sn isEnum recurse rest with
        | .error e => .error e
        | .ok (ms, ex) =>
          .ok (⟨snake k, [], Ret.named (childName sn k),
                Body.ctor isEnum (childName sn k)⟩ :: ms, nested ++ ex)
  | (k, Value.other _) :: rest =>
    match genEntries langs store sn isEnum recurse rest with
    | .error e => .error e
    | .ok (ms, ex) => .ok (⟨snake k, [], Ret.none, Body.nothing⟩ :: ms, ex)

/-- Model of `generate_enum_impl` (design copy, `i18n/mod.rs`): the first
value of the language map is the reference table; its entries drive method
generation; nested tables recurse with a fresh accessor struct.  The fuel
argument only bounds nesting depth (the source recursion terminates because
documents are finite trees); every theorem assumes sufficient fuel. -/
def genImpl : Nat → List Lang → List (Lang × Toml) → Option String → Bool →
    Bool → Except String (List GenItem)
  | 0, _, _, _, _, _ => .error "recursion depth exceeded"
  | fuel + 1, langs, store, sn, isEnum, newStruct =>
    match store.head? with
    | Option.none => .error "there should be at least 1 language"
    | some p =>
      match genEntries langs store sn isEnum
          (fun st sn2 ie2 ns2 => genImpl fuel langs st sn2 ie2 ns2) p.2 with
      | .error e => .error e
      | .ok (ms, ex) => .ok (⟨sn.getD "Language", newStruct, ms⟩ :: ex)

/-- Everything `generate_mod` (design copy) emits: the `Language` enum's
members and `FromStr` arms in input (directory enumeration) order, the
accessor impls from `generate_enum_impl`, and the `Default` impl when a
fallback is configured. -/
structure ModOut where
  enumMembers : List String
  fromStrArms : List (String × String)
  items : List GenItem
  defaultImpl : Option String
deriving DecidableEq

/-- Model of `generate_mod` (design copy): collects enum members and parse
arms from the input list in order, builds the `BTreeMap` of documents,
and runs `generate_enum_impl` on it with the sorted language list. -/
def generate_mod (fuel : Nat) (inputs : List (Lang × Toml))
    (fallback : Option Lang) : Except String ModOut :=
  match genImpl fuel ((buildStore inputs).map (·.1)) (buildStore inputs)
      Option.none true false with
  | .error e => .error e
  | .ok items =>
    .ok { enumMembers := inputs.map (fun p => p.1.enum_variant)
          fromStrArms := inputs.map (fun p => (p.1.inner, p.1.enum_variant))
          items := items
          defaultImpl := fallback.map (fun l => l.enum_variant) }

/-- Output of the derive entry point `try_derive_i18n` (design copy): the
generated module, the per-language accessor methods on the host type
(selector name and returned variant, in directory order), and whether a
`fallback()` accessor was emitted.  A `get_lang` method is always present
and delegates to the generated `FromStr`. -/
structure DeriveOut where
  modOut : ModOut
  accessors : List (String × String)
  hasFallbackFn : Bool
deriving DecidableEq

/-- Model of `try_derive_i18n` (design copy) after document loading: fails
when no documents were found; when a fallback tag is configured it must
match some file stem up to ASCII case, else
`"fallback language ... does not exist"`; then `generate_mod` runs. -/
def try_derive_i18n (fuel : Nat) (files : List (String × Toml))
    (fallback : Option String) : Except String DeriveOut :=
  if files.isEmpty then .error "no translation file found"
  else
    match fallback with
    | some l =>
      if files.any (fun p => eqIgnoreAsciiCase p.1 l) then
        match generate_mod fuel (files.map (fun p => (Lang.new p.1, p.2)))
            (some (Lang.new l)) with
        | .error e => .error e
        | .ok m =>
          .ok ⟨m, files.map (fun p => ((Lang.new p.1).fn_name,
                (Lang.new p.1).enum_variant)), true⟩
      else .error ("fallback language " ++ l ++ " does not exist")
    | Option.none =>
      match generate_mod fuel (files.map (fun p => (Lang.new p.1, p.2)))
          Option.none with
      | .error e => .error e
      | .ok m =>
        .ok ⟨m, files.map (fun p => ((Lang.new p.1).fn_name,
              (Lang.new p.1).enum_variant)), false⟩

/-- The generated `FromStr for Language` (and hence `parse_language` and
`get_lang`): the first arm whose raw tag equals the input up to ASCII case
wins; no match is `Err`.  Arms are `(raw tag, variant name)` pairs. -/
def parse_language (arms : List (String × String)) (s : String) :
    Option String :=
  (arms.find? (fun a => eqIgnoreAsciiCase s a.1)).map (·.2)

/-- The host type's `get_lang`, which simply parses via `FromStr`. -/
def get_lang (arms : List (String × String)) (s : String) : Option String :=
  parse_language arms s

/-- The structural-check loop of the legacy `generate_mod` (`lib.rs`): each
language's table is checked by `check_tables` against the chosen reference,
and the first failure reports only the language, in the message
`language <lang>'s translation file is not in the right format`. -/
def legacyCheckAll (checkLang : Toml) : List (String × Toml) →
    Except String Unit
  | [] => .ok ()
  | (lang, t) :: rest =>
    if check_tables checkLang t then legacyCheckAll checkLang rest
    else .error ("language " ++ lang ++
      "'s translation file is not in the right format")

/-- Method skeleton: name, formal parameters, return type — the shape the
specification talks about, independent of per-language bodies. -/
structure MethodSkel where
  name : String
  params : List String
  ret : Ret
deriving DecidableEq

structure ItemSkel where
  tyName : String
  isStruct : Bool
  methods : List MethodSkel
deriving DecidableEq

def Method.skel (m : Method) : MethodSkel := ⟨m.name, m.params, m.ret⟩

def GenItem.skel (g : GenItem) : ItemSkel :=
  ⟨g.tyName, g.isStruct, g.methods.map Method.skel⟩

/-- Method skeletons determined by the reference table alone. -/
def refMethods (sn : Option String) : Toml → List MethodSkel
  | [] => []
  | (k, Value.str s) :: rest =>
    ⟨snake k, argsOf s, Ret.cow⟩ :: refMethods sn rest
  | (k, Value.table _) :: rest =>
    ⟨snake k, [], Ret.named (childName sn k)⟩ :: refMethods sn rest
  | (k, Value.other _) :: rest =>
    ⟨snake k, [], Ret.none⟩ :: refMethods sn rest

mutual

/-- Skeletons of the nested accessor types below one value. -/
def refExtrasV (sn : Option String) (k : String) : Value → List ItemSkel
  | .table t =>
    ⟨childName sn k, true, refMethods (some (childName sn k)) t⟩ ::
      refExtrasL (some (childName sn k)) t
  | _ => []

/-- Skeletons of the nested accessor types below one table, in key order. -/
def refExtrasL (sn : Option String) : Toml → List ItemSkel
  | [] => []
  | (k, v) :: rest => refExtrasV sn k v ++ refExtrasL sn rest

end

/-- Full skeleton of the generator's output for a reference table: the
current item followed by every nested accessor type, a function of the
reference document alone. -/
def refSkel (sn : Option String) (newStruct : Bool) (t : Toml) :
    List ItemSkel :=
  ⟨sn.getD "Language", newStruct, refMethods sn t⟩ :: refExtrasL sn t

mutual

/-- Paths (key sequences, root excluded) of the table nodes below one
value, in generation order. -/
def tablePathsV (k : String) : Value → List (List String)
  | .table t => [k] :: (tablePathsL t).map (fun p => k :: p)
  | _ => []

/-- Paths of all table nodes of a document, in generation order. -/
def tablePathsL : Toml → List (List String)
  | [] => []
  | (k, v) :: rest => tablePathsV k v ++ tablePathsL rest

end

/-- Separator-joining of name segments (the `join("__")` of the source). -/
def joinSep : List String → String
  | [] => ""
  | [x] => x
  | x :: rest => x ++ "__" ++ joinSep rest

/-- The specification's naming rule for a table path: Pascal-cased segments
joined by the fixed separator `"__"`. -/
def nameOfPath (p : List String) : String :=
  joinSep (p.map pascal)

/-- Bool-valued test that `needle` is a prefix of the second list. -/
def isPrefixB : List Char → List Char → Bool
  | [], _ => true
  | _ :: _, [] => false
  | a :: as, b :: bs => a == b && isPrefixB as bs

/-- Bool-valued test that `needle` occurs contiguously in the haystack;
used to state what a diagnostic message does (not) mention. -/
def containsSub (needle : List Char) : List Char → Bool
  | [] => isPrefixB needle []
  | l@(_ :: rest) => isPrefixB needle l || containsSub needle rest

/-! ### Lemmas: lookups -/

theorem lookupT_cons (k0 : String) (v0 : Value) (rest : Toml) (k : String) :
    lookupT ((k0, v0) :: rest) k =
      if (k0 == k) then some v0 else lookupT rest k := by
  by_cases h : (k0 == k) = true
  · simp [lookupT, List.find?, h]
  · simp only [Bool.not_eq_true] at h
    simp [lookupT, List.find?, h]

theorem lookupT_eq_of_mem {t : Toml} {k : String} {v : Value}
    (hn : keysNodup t = true) (hm : (k, v) ∈ t) : lookupT t k = some v := by
  induction t with
  | nil => cases hm
  | cons e rest ih =>
    obtain ⟨k0, v0⟩ := e
    simp only [keysNodup, Bool.and_eq_true] at hn
    rcases List.mem_cons.mp hm with h | h
    · obtain ⟨h1, h2⟩ := Prod.mk.injEq _ _ _ _ ▸ h
      subst h1; subst h2
      simp [lookupT_cons]
    · have hk : (k0 == k) ≠ true := by
        intro he
        have hk0 : k0 = k := by simpa using he
        subst hk0
        have : rest.any (fun e => e.1 == k0) = true :=
          List.any_eq_true.mpr ⟨(k0, v), h, by simp⟩
        simp [this] at hn
      rw [lookupT_cons]
      simp only [hk, if_false]
      exact ih hn.2 h

theorem mem_of_lookupT {t : Toml} {k : String} {v : Value}
    (h : lookupT t k = some v) : (k, v) ∈ t := by
  unfold lookupT at h
  cases hf : t.find? (fun e => e.1 == k) with
  | none => rw [hf] at h; cases h
  | some e =>
    rw [hf] at h
    have hm := List.mem_of_find?_eq_some hf
    have hp := List.find?_some hf
    obtain ⟨ek, ev⟩ := e
    simp only [Option.map_some'] at h
    cases h
    have : ek = k := by simpa using hp
    subst this
    exact hm

theorem lookupL_cons (l0 : Lang) (d0 : Toml) (rest : List (Lang × Toml))
    (l : Lang) :
    lookupL ((l0, d0) :: rest) l =
      if (l0 == l) then some d0 else lookupL rest l := by
  by_cases h : (l0 == l) = true
  · simp [lookupL, List.find?, h]
  · simp only [Bool.not_eq_true] at h
    simp [lookupL, List.find?, h]

/-- Strict key-sortedness of a language store, the invariant of the
`BTreeMap<Lang, _>` representation. -/
def storeSorted (store : List (Lang × Toml)) : Prop :=
  store.Pairwise (fun a b => strLt a.1.inner b.1.inner = true)

theorem lookupL_eq_of_mem {store : List (Lang × Toml)} {l : Lang} {d : Toml}
    (hs : storeSorted store) (hm : (l, d) ∈ store) :
    lookupL store l = some d := by
  induction store with
  | nil => cases hm
  | cons e rest ih =>
    obtain ⟨l0, d0⟩ := e
    rcases List.mem_cons.mp hm with h | h
    · obtain ⟨h1, h2⟩ := Prod.mk.injEq _ _ _ _ ▸ h
      subst h1; subst h2
      simp [lookupL_cons]
    · have hlt := (List.pairwise_cons.mp hs).1 (l, d) h
      have hk : (l0 == l) ≠ true := by
        intro he
        have : l0 = l := by simpa using he
        subst this
        rw [strLt_irrefl] at hlt
        cases hlt
      rw [lookupL_cons]
      simp only [hk, if_false]
      exact ih (List.pairwise_cons.mp hs).2 h

theorem mem_of_lookupL {store : List (Lang × Toml)} {l : Lang} {d : Toml}
    (h : lookupL store l = some d) : (l, d) ∈ store := by
  unfold lookupL at h
  cases hf : store.find? (fun e => e.1 == l) with
  | none => rw [hf] at h; cases h
  | some e =>
    rw [hf] at h
    have hm := List.mem_of_find?_eq_some hf
    have hp := List.find?_some hf
    obtain ⟨el, ed⟩ := e
    simp only [Option.map_some'] at h
    cases h
    have : el = l := by simpa using hp
    subst this
    exact hm

/-! ### Lemmas: the covering criterion -/

theorem coversT_iff (t d : Toml) :
    coversT t d = true ↔ ∀ e ∈ t, coversE e.1 e.2 d = true := by
  induction t with
  | nil => simp [coversT]
  | cons e rest ih =>
    obtain ⟨k, v⟩ := e
    simp only [coversT, Bool.and_eq_true, ih, List.mem_cons]
    constructor
    · rintro ⟨h1, h2⟩ e he
      rcases he with he | he
      · subst he; exact h1
      · exact h2 e he
    · intro h
      exact ⟨h (k, v) (Or.inl rfl), fun e he => h e (Or.inr he)⟩

theorem coversE_str {k : String} {s : String} {d : Toml}
    (h : coversE k (Value.str s) d = true) :
    ∃ s2, lookupT d k = some (Value.str s2) := by
  unfold coversE at h
  cases hl : lookupT d k with
  | none => rw [hl] at h; cases h
  | some w =>
    rw [hl] at h
    cases w with
    | str s2 => exact ⟨s2, rfl⟩
    | table t2 => cases h
    | other n => cases h

theorem coversE_table {k : String} {t : Toml} {d : Toml}
    (h : coversE k (Value.table t) d = true) :
    ∃ dt, lookupT d k = some (Value.table dt) ∧ coversT t dt = true := by
  unfold coversE at h
  cases hl : lookupT d k with
  | none => rw [hl] at h; cases h
  | some w =>
    rw [hl] at h
    cases w with
    | str s2 => cases h
    | table dt => exact ⟨dt, rfl, h⟩
    | other n => cases h

theorem coversE_str_of {k : String} {s s2 : String} {d : Toml}
    (h : lookupT d k = some (Value.str s2)) :
    coversE k (Value.str s) d = true := by
  unfold coversE; rw [h]

theorem coversE_table_of {k : String} {t dt : Toml} {d : Toml}
    (h : lookupT d k = some (Value.table dt)) (hc : coversT t dt = true) :
    coversE k (Value.table t) d = true := by
  unfold coversE; rw [h]; exact hc

/-! ### Lemmas: well-formedness and depth -/

theorem wfEntries_mem {t : Toml} {k : String} {v : Value}
    (hw : wfEntries t = true) (hm : (k, v) ∈ t) : wfV v = true := by
  induction t with
  | nil => cases hm
  | cons e rest ih =>
    obtain ⟨k0, v0⟩ := e
    simp only [wfEntries, Bool.and_eq_true] at hw
    rcases List.mem_cons.mp hm with h | h
    · obtain ⟨h1, h2⟩ := Prod.mk.injEq _ _ _ _ ▸ h
      subst h2; exact hw.1
    · exact ih hw.2 h

theorem wfT_of_table {d : Toml} {k : String} {dt : Toml}
    (hw : wfT d = true) (hm : (k, Value.table dt) ∈ d) : wfT dt = true := by
  have hw2 : keysNodup d = true ∧ wfEntries d = true := by
    simpa [wfT] using hw
  have := wfEntries_mem hw2.2 hm
  simpa [wfV, wfT] using this

theorem keysNodup_of_wfT {d : Toml} (hw : wfT d = true) :
    keysNodup d = true := by
  have hw2 : keysNodup d = true ∧ wfEntries d = true := by
    simpa [wfT] using hw
  exact hw2.1

/-! ### Lemmas: the BTreeMap model -/

theorem btInsert_mem {p : Lang × Toml} :
    ∀ {m : List (Lang × Toml)} {b : Lang × Toml},
      b ∈ btInsert p m → b = p ∨ b ∈ m := by
  intro m
  induction m with
  | nil => intro b hb; simp [btInsert] at hb; exact Or.inl hb
  | cons q rest ih =>
    intro b hb
    unfold btInsert at hb
    by_cases h1 : strLt p.1.inner q.1.inner = true
    · rw [if_pos h1] at hb
      rcases List.mem_cons.mp hb with h | h
      · exact Or.inl h
      · exact Or.inr h
    · rw [if_neg h1] at hb
      by_cases h2 : p.1.inner = q.1.inner
      · rw [if_pos h2] at hb
        rcases List.mem_cons.mp hb with h | h
        · exact Or.inl h
        · exact Or.inr (List.mem_cons_of_mem _ h)
      · rw [if_neg h2] at hb
        rcases List.mem_cons.mp hb with h | h
        · exact Or.inr (h ▸ List.mem_cons_self _ _)
        · rcases ih h with h | h
          · exact Or.inl h
          · exact Or.inr (List.mem_cons_of_mem _ h)

theorem btInsert_pairwise {p : Lang × Toml} {m : List (Lang × Toml)}
    (hs : storeSorted m) : storeSorted (btInsert p m) := by
  induction m with
  | nil => simp [btInsert, storeSorted]
  | cons q rest ih =>
    have hq := (List.pairwise_cons.mp hs).1
    have hrest := (List.pairwise_cons.mp hs).2
    unfold btInsert
    by_cases h1 : strLt p.1.inner q.1.inner = true
    · rw [if_pos h1]
      refine List.pairwise_cons.mpr ⟨?_, hs⟩
      intro b hb
      rcases List.mem_cons.mp hb with h | h
      · subst h; exact h1
      · exact strLt_trans h1 (hq b h)
    · rw [if_neg h1]
      by_cases h2 : p.1.inner = q.1.inner
      · rw [if_pos h2]
        refine List.pairwise_cons.mpr ⟨?_, hrest⟩
        intro b hb
        exact h2 ▸ hq b hb
      · rw [if_neg h2]
        refine List.pairwise_cons.mpr ⟨?_, ih hrest⟩
        intro b hb
        rcases btInsert_mem hb with h | h
        · subst h
          exact strLt_true_of_ne (Bool.not_eq_true _ ▸ h1) h2
        · exact hq b h

theorem btInsert_gt_eq_append {p : Lang × Toml} :
    ∀ {m : List (Lang × Toml)}, (∀ q ∈ m, strLt q.1.inner p.1.inner = true) →
      btInsert p m = m ++ [p] := by
  intro m
  induction m with
  | nil => intro _; rfl
  | cons q rest ih =>
    intro h
    have hq := h q (List.mem_cons_self _ _)
    unfold btInsert
    rw [if_neg (by
        intro hc
        exact strLt_asymm hc hq),
      if_neg (by
        intro hc
        rw [hc] at hq
        rw [strLt_irrefl] at hq
        cases hq)]
    rw [ih (fun b hb => h b (List.mem_cons_of_mem _ hb))]
    rfl

theorem foldl_btInsert_sorted_id :
    ∀ (l acc : List (Lang × Toml)), storeSorted (acc ++ l) →
      List.foldl (fun m p => btInsert p m) acc l = acc ++ l := by
  intro l
  induction l with
  | nil => intro acc _; simp
  | cons x rest ih =>
    intro acc hs
    have hacc : ∀ q ∈ acc, strLt q.1.inner x.1.inner = true := by
      intro q hq
      exact (List.pairwise_append.mp hs).2.2 q hq x (List.mem_cons_self _ _)
    have hstep : btInsert x acc = acc ++ [x] := btInsert_gt_eq_append hacc
    have hs2 : storeSorted ((acc ++ [x]) ++ rest) := by
      rw [List.append_assoc]
      simpa using hs
    calc List.foldl (fun m p => btInsert p m) acc (x :: rest)
        = List.foldl (fun m p => btInsert p m) (btInsert x acc) rest := rfl
      _ = List.foldl (fun m p => btInsert p m) (acc ++ [x]) rest := by
          rw [hstep]
      _ = (acc ++ [x]) ++ rest := ih (acc ++ [x]) hs2
      _ = acc ++ x :: rest := by rw [List.append_assoc]; rfl

theorem buildStore_sorted_id {l : List (Lang × Toml)}
    (hs : storeSorted l) : buildStore l = l := by
  have := foldl_btInsert_sorted_id l [] (by simpa using hs)
  simpa [buildStore] using this

theorem buildStore_sorted (l : List (Lang × Toml)) :
    storeSorted (buildStore l) := by
  have haux : ∀ (l2 acc : List (Lang × Toml)), storeSorted acc →
      storeSorted (List.foldl (fun m p => btInsert p m) acc l2) := by
    intro l2
    induction l2 with
    | nil => intro acc h; exact h
    | cons x rest ih =>
      intro acc h
      exact ih (btInsert x acc) (btInsert_pairwise h)
  exact haux l [] (List.Pairwise.nil)

theorem btInsert_perm {p : Lang × Toml} :
    ∀ {m : List (Lang × Toml)}, (∀ q ∈ m, q.1.inner ≠ p.1.inner) →
      (btInsert p m).Perm (p :: m) := by
  intro m
  induction m with
  | nil => intro _; exact List.Perm.refl _
  | cons q rest ih =>
    intro h
    unfold btInsert
    by_cases h1 : strLt p.1.inner q.1.inner = true
    · rw [if_pos h1]
    · rw [if_neg h1]
      have h2 : ¬ p.1.inner = q.1.inner := by
        intro hc
        exact h q (List.mem_cons_self _ _) hc.symm
      rw [if_neg h2]
      exact ((ih (fun b hb => h b (List.mem_cons_of_mem _ hb))).cons q).trans
        (List.Perm.swap p q rest)


theorem foldl_btInsert_perm :
    ∀ (l acc : List (Lang × Toml)),
      ((acc ++ l).map (fun q => q.1.inner)).Nodup →
      (List.foldl (fun m p => btInsert p m) acc l).Perm (acc ++ l) := by
  intro l
  induction l with
  | nil => intro acc _; simp
  | cons x rest ih =>
    intro acc hnd
    have hxfresh : ∀ q ∈ acc, q.1.inner ≠ x.1.inner := by
      intro q hq hc
      have hsplit : ((acc ++ x :: rest).map (fun q => q.1.inner)) =
          acc.map (fun q => q.1.inner) ++
            (x.1.inner :: rest.map (fun q => q.1.inner)) := by
        simp
      rw [hsplit] at hnd
      have hdisj := (List.nodup_append.mp hnd).2.2
      exact hdisj (List.mem_map_of_mem _ hq)
        (hc ▸ List.mem_cons_self _ _)
    have hstep : (btInsert x acc).Perm (x :: acc) := btInsert_perm hxfresh
    have hperm1 : (btInsert x acc ++ rest).Perm (acc ++ x :: rest) :=
      (hstep.append_right rest).trans List.perm_middle.symm
    have hnd2 : ((btInsert x acc ++ rest).map (fun q => q.1.inner)).Nodup := by
      exact ((hperm1.map (fun q => q.1.inner)).nodup_iff).mpr hnd
    exact (ih (btInsert x acc) hnd2).trans hperm1

theorem buildStore_perm {l : List (Lang × Toml)}
    (h : (l.map (fun q => q.1.inner)).Nodup) : (buildStore l).Perm l := by
  have := foldl_btInsert_perm l [] (by simpa using h)
  simpa [buildStore] using this

theorem buildStore_eq_of_perm {l1 l2 : List (Lang × Toml)}
    (hp : l1.Perm l2) (h : (l1.map (fun q => q.1.inner)).Nodup) :
    buildStore l1 = buildStore l2 := by
  letI : IsAntisymm (Lang × Toml)
      (fun a b => strLt a.1.inner b.1.inner = true) :=
    ⟨fun a b h1 h2 => absurd (strLt_trans h1 h2)
      (by rw [strLt_irrefl]; exact Bool.false_ne_true)⟩
  have h2 : (l2.map (fun q => q.1.inner)).Nodup :=
    ((hp.map (fun q => q.1.inner)).nodup_iff).mp h
  have hperm : (buildStore l1).Perm (buildStore l2) :=
    ((buildStore_perm h).trans hp).trans (buildStore_perm h2).symm
  exact List.eq_of_perm_of_sorted hperm (buildStore_sorted l1)
    (buildStore_sorted l2)

theorem depthL_lt_of_table {r : Toml} {k : String} {t : Toml}
    (hm : (k, Value.table t) ∈ r) : depthL t < depthL r := by
  induction r with
  | nil => cases hm
  | cons e rest ih =>
    obtain ⟨k0, v0⟩ := e
    rcases List.mem_cons.mp hm with h | h
    · obtain ⟨h1, h2⟩ := Prod.mk.injEq _ _ _ _ ▸ h
      subst h2
      have : depthV (Value.table t) = depthL t + 1 := rfl
      simp only [depthL, this]
      omega
    · have := ih h
      simp only [depthL]
      omega

/-! ### Lemmas: the per-language loops of the generator -/

theorem collectArms_ok_of {store : List (Lang × Toml)} {k : String}
    (b : Bool) :
    ∀ {langs : List Lang},
      (∀ l ∈ langs, ∃ d s2, lookupL store l = some d ∧
        lookupT d k = some (Value.str s2)) →
      ∃ arms, collectArms store k b langs = .ok arms := by
  intro langs
  induction langs with
  | nil => intro _; exact ⟨[], rfl⟩
  | cons lang rest ih =>
    intro h
    obtain ⟨d, s2, hd, hk⟩ := h lang (List.mem_cons_self _ _)
    obtain ⟨arms, harms⟩ := ih (fun l hl => h l (List.mem_cons_of_mem _ hl))
    refine ⟨(lang.enum_variant,
      if b then StrRet.owned s2 else StrRet.borrowed s2) :: arms, ?_⟩
    unfold collectArms
    simp only [hd, hk, Value.asStr, harms]

theorem of_collectArms_ok {store : List (Lang × Toml)} {k : String}
    {b : Bool} :
    ∀ {langs : List Lang} {arms : List (String × StrRet)},
      collectArms store k b langs = .ok arms →
      ∀ l ∈ langs, ∃ d s2, lookupL store l = some d ∧
        lookupT d k = some (Value.str s2) := by
  intro langs
  induction langs with
  | nil => intro arms _ l hl; cases hl
  | cons lang rest ih =>
    intro arms hok l hl
    unfold collectArms at hok
    cases hd : lookupL store lang with
    | none => simp only [hd] at hok; cases hok
    | some d =>
      simp only [hd] at hok
      cases hk : lookupT d k with
      | none => simp only [hk] at hok; cases hok
      | some w =>
        simp only [hk] at hok
        cases hw : w.asStr with
        | none => simp only [hw] at hok; cases hok
        | some s2 =>
          simp only [hw] at hok
          have hws : w = Value.str s2 := by
            cases w with
            | str s => simp [Value.asStr] at hw; rw [hw]
            | table t => simp [Value.asStr] at hw
            | other n => simp [Value.asStr] at hw
          cases hrec : collectArms store k b rest with
          | error e => simp only [hrec] at hok; cases hok
          | ok arms2 =>
            rcases List.mem_cons.mp hl with h | h
            · subst h; exact ⟨d, s2, hd, hws ▸ hk⟩
            · exact ih hrec l h

theorem collectTbls_ok_of {store : List (Lang × Toml)} {k : String} :
    ∀ {langs : List Lang},
      (∀ l ∈ langs, ∃ d dt, lookupL store l = some d ∧
        lookupT d k = some (Value.table dt)) →
      ∃ pairs, collectTbls store k langs = .ok pairs := by
  intro langs
  induction langs with
  | nil => intro _; exact ⟨[], rfl⟩
  | cons lang rest ih =>
    intro h
    obtain ⟨d, dt, hd, hk⟩ := h lang (List.mem_cons_self _ _)
    obtain ⟨pairs, hpairs⟩ := ih (fun l hl => h l (List.mem_cons_of_mem _ hl))
    refine ⟨(lang, dt) :: pairs, ?_⟩
    unfold collectTbls
    simp only [hd, hk, Value.asTable, hpairs]

theorem of_collectTbls_ok {store : List (Lang × Toml)} {k : String} :
    ∀ {langs : List Lang} {pairs : List (Lang × Toml)},
      collectTbls store k langs = .ok pairs →
      pairs.map (fun q => q.1) = langs ∧
      ∀ q ∈ pairs, ∃ d, lookupL store q.1 = some d ∧
        lookupT d k = some (Value.table q.2) := by
  intro langs
  induction langs with
  | nil =>
    intro pairs hok
    cases hok
    exact ⟨rfl, fun q hq => absurd hq (List.not_mem_nil _)⟩
  | cons lang rest ih =>
    intro pairs hok
    unfold collectTbls at hok
    cases hd : lookupL store lang with
    | none => simp only [hd] at hok; cases hok
    | some d =>
      simp only [hd] at hok
      cases hk : lookupT d k with
      | none => simp only [hk] at hok; cases hok
      | some w =>
        simp only [hk] at hok
        cases hw : w.asTable with
        | none => simp only [hw] at hok; cases hok
        | some dt =>
          simp only [hw] at hok
          have hwt : w = Value.table dt := by
            cases w with
            | str s => simp [Value.asTable] at hw
            | table t => simp [Value.asTable] at hw; rw [hw]
            | other n => simp [Value.asTable] at hw
          cases hrec : collectTbls store k rest with
          | error e => simp only [hrec] at hok; cases hok
          | ok tl =>
            simp only [hrec] at hok
            cases hok
            obtain ⟨hmap, hpt⟩ := ih hrec
            refine ⟨by simp [hmap], ?_⟩
            intro q hq
            rcases List.mem_cons.mp hq with h | h
            · subst h; exact ⟨d, hd, hwt ▸ hk⟩
            · exact hpt q h

/-! ### Main lemmas: success and shape of the generator -/

theorem head_mem_of_head? {store : List (Lang × Toml)} {p : Lang × Toml}
    (h : store.head? = some p) : p ∈ store := by
  cases store with
  | nil => cases h
  | cons q rest =>
    simp only [List.head?] at h
    cases h
    exact List.mem_cons_self _ _

theorem langs_pairwise {langs : List Lang} {store : List (Lang × Toml)}
    (hl : langs = store.map (fun q => q.1)) (hsort : storeSorted store) :
    langs.Pairwise (fun a b => strLt a.inner b.inner = true) := by
  subst hl
  rw [List.pairwise_map]
  exact hsort

theorem pairs_sorted {langs : List Lang} {store pairs : List (Lang × Toml)}
    (hl : langs = store.map (fun q => q.1)) (hsort : storeSorted store)
    (hmap : pairs.map (fun q => q.1) = langs) : storeSorted pairs := by
  have h1 : (pairs.map (fun q => q.1)).Pairwise
      (fun a b : Lang => strLt a.inner b.inner = true) := by
    rw [hmap]
    exact langs_pairwise hl hsort
  rw [List.pairwise_map] at h1
  exact h1

theorem pairs_wf {store pairs : List (Lang × Toml)} {k : String}
    (hwf : ∀ q ∈ store, wfT q.2 = true)
    (hpt : ∀ q ∈ pairs, ∃ d, lookupL store q.1 = some d ∧
      lookupT d k = some (Value.table q.2)) :
    ∀ q ∈ pairs, wfT q.2 = true := by
  intro q hq
  obtain ⟨d, hld, hk⟩ := hpt q hq
  have hmem := mem_of_lookupL hld
  have hwd := hwf _ hmem
  exact wfT_of_table hwd (mem_of_lookupT hk)

theorem pairs_head {langs : List Lang} {store pairs : List (Lang × Toml)}
    {l0 : Lang} {d0 : Toml} {k : String} {t : Toml}
    (hl : langs = store.map (fun q => q.1))
    (hhead : store.head? = some (l0, d0))
    (hkn : keysNodup d0 = true)
    (hmem : (k, Value.table t) ∈ d0)
    (hmap : pairs.map (fun q => q.1) = langs)
    (hpt : ∀ q ∈ pairs, ∃ d, lookupL store q.1 = some d ∧
      lookupT d k = some (Value.table q.2)) :
    pairs.head? = some (l0, t) := by
  cases store with
  | nil => cases hhead
  | cons p0 srest =>
    simp only [List.head?] at hhead
    cases hhead
    cases pairs with
    | nil => rw [hl] at hmap; cases hmap
    | cons q0 prest =>
      have hq0 : q0.1 = l0 := by
        rw [hl] at hmap
        simpa using congrArg List.head? hmap
      obtain ⟨d, hld, hk⟩ := hpt q0 (List.mem_cons_self _ _)
      rw [hq0] at hld
      rw [lookupL_cons] at hld
      simp only [beq_self_eq_true, if_true] at hld
      cases hld
      have hk0 : lookupT d0 k = some (Value.table t) := lookupT_eq_of_mem hkn hmem
      rw [hk0] at hk
      cases hk
      obtain ⟨a, b⟩ := q0
      simp only at hq0
      rw [hq0]
      rfl

theorem pairs_covers {store pairs : List (Lang × Toml)}
    {k : String} {t : Toml}
    (hpt : ∀ q ∈ pairs, ∃ d, lookupL store q.1 = some d ∧
      lookupT d k = some (Value.table q.2))
    (hcovE : ∀ q ∈ store, coversE k (Value.table t) q.2 = true) :
    ∀ q ∈ pairs, coversT t q.2 = true := by
  intro q hq
  obtain ⟨d, hld, hk⟩ := hpt q hq
  have hmem := mem_of_lookupL hld
  obtain ⟨dt2, hk2, hc2⟩ := coversE_table (hcovE _ hmem)
  rw [hk] at hk2
  cases hk2
  exact hc2

theorem coversE_of_pairs {langs : List Lang} {store pairs : List (Lang × Toml)}
    {k : String} {t : Toml}
    (hl : langs = store.map (fun q => q.1)) (hsort : storeSorted store)
    (hmap : pairs.map (fun q => q.1) = langs)
    (hpt : ∀ q ∈ pairs, ∃ d, lookupL store q.1 = some d ∧
      lookupT d k = some (Value.table q.2))
    (hcovers : ∀ q ∈ pairs, coversT t q.2 = true) :
    ∀ q ∈ store, coversE k (Value.table t) q.2 = true := by
  intro q hq
  have hlmem : q.1 ∈ langs := by
    rw [hl]
    exact List.mem_map_of_mem _ hq
  rw [← hmap] at hlmem
  obtain ⟨qp, hqp, hfst⟩ := List.mem_map.mp hlmem
  obtain ⟨d, hld, hk⟩ := hpt qp hqp
  rw [hfst] at hld
  have : lookupL store q.1 = some q.2 := lookupL_eq_of_mem hsort (by
    obtain ⟨a, b⟩ := q
    exact hq)
  rw [this] at hld
  cases hld
  exact coversE_table_of hk (hcovers qp hqp)

theorem genEntries_ok
    (sn : Option String) (ie : Bool) (F : Nat)
    {langs : List Lang} {store : List (Lang × Toml)}
    {recurse : List (Lang × Toml) → Option String → Bool → Bool →
      Except String (List GenItem)}
    {l0 : Lang} {d0 : Toml}
    (hl : langs = store.map (fun q => q.1))
    (hsort : storeSorted store)
    (hwf : ∀ q ∈ store, wfT q.2 = true)
    (hhead : store.head? = some (l0, d0))
    (hkn : keysNodup d0 = true)
    (hF : depthL d0 ≤ F)
    (hrec : ∀ st (sn2 : String) (l0' : Lang) (d0' : Toml),
      st.map (fun q => q.1) = langs → storeSorted st →
      (∀ q ∈ st, wfT q.2 = true) → st.head? = some (l0', d0') →
      (∀ q ∈ st, coversT d0' q.2 = true) → depthL d0' < F →
      ∃ items, recurse st (some sn2) false true = .ok items ∧
        items.map GenItem.skel = refSkel (some sn2) true d0') :
    ∀ {entries : Toml},
      (∀ e ∈ entries, e ∈ d0) →
      (∀ e ∈ entries, ∀ q ∈ store, coversE e.1 e.2 q.2 = true) →
      ∃ ms ex, genEntries langs store sn ie recurse entries = .ok (ms, ex) ∧
        ms.map Method.skel = refMethods sn entries ∧
        ex.map GenItem.skel = refExtrasL sn entries := by
  intro entries
  induction entries with
  | nil => intro _ _; exact ⟨[], [], rfl, rfl, rfl⟩
  | cons e rest ih =>
    intro he hcov
    obtain ⟨k, v⟩ := e
    obtain ⟨ms, ex, hg, hm, hx⟩ :=
      ih (fun x hx2 => he x (List.mem_cons_of_mem _ hx2))
        (fun x hx2 => hcov x (List.mem_cons_of_mem _ hx2))
    cases v with
    | str s =>
      have harm : ∀ l ∈ langs, ∃ d s2, lookupL store l = some d ∧
          lookupT d k = some (Value.str s2) := by
        intro l hlm
        rw [hl] at hlm
        obtain ⟨q, hq, hfst⟩ := List.mem_map.mp hlm
        obtain ⟨s2, hs2⟩ := coversE_str
          (hcov (k, Value.str s) (List.mem_cons_self _ _) q hq)
        refine ⟨q.2, s2, ?_, hs2⟩
        rw [← hfst]
        exact lookupL_eq_of_mem hsort (by obtain ⟨a, b⟩ := q; exact hq)
      obtain ⟨arms, harms⟩ :=
        collectArms_ok_of (!(argsOf s).isEmpty) harm
      refine ⟨⟨snake k, argsOf s, Ret.cow, Body.strMatch ie arms⟩ :: ms, ex,
        ?_, ?_, ?_⟩
      · simp only [genEntries, harms, hg]
      · simp [refMethods, Method.skel, hm]
      · simp [refExtrasL, refExtrasV, hx]
    | table t =>
      have htbl : ∀ l ∈ langs, ∃ d dt, lookupL store l = some d ∧
          lookupT d k = some (Value.table dt) := by
        intro l hlm
        rw [hl] at hlm
        obtain ⟨q, hq, hfst⟩ := List.mem_map.mp hlm
        obtain ⟨dt, hdt, _⟩ := coversE_table
          (hcov (k, Value.table t) (List.mem_cons_self _ _) q hq)
        refine ⟨q.2, dt, ?_, hdt⟩
        rw [← hfst]
        exact lookupL_eq_of_mem hsort (by obtain ⟨a, b⟩ := q; exact hq)
      obtain ⟨pairs, hpairs⟩ := collectTbls_ok_of htbl
      obtain ⟨hmap, hpt⟩ := of_collectTbls_ok hpairs
      have hps : storeSorted pairs := pairs_sorted hl hsort hmap
      have hbuild : buildStore pairs = pairs := buildStore_sorted_id hps
      have hmemk : (k, Value.table t) ∈ d0 :=
        he (k, Value.table t) (List.mem_cons_self _ _)
      have hph : pairs.head? = some (l0, t) :=
        pairs_head hl hhead hkn hmemk hmap hpt
      have hpcov : ∀ q ∈ pairs, coversT t q.2 = true :=
        pairs_covers hpt
          (fun q hq => hcov (k, Value.table t) (List.mem_cons_self _ _) q hq)
      have hdep : depthL t < F :=
        lt_of_lt_of_le (depthL_lt_of_table hmemk) hF
      obtain ⟨nested, hn, hnskel⟩ :=
        hrec pairs (childName sn k) l0 t hmap hps
          (pairs_wf hwf hpt) hph hpcov hdep
      refine ⟨⟨snake k, [], Ret.named (childName sn k),
        Body.ctor ie (childName sn k)⟩ :: ms, nested ++ ex, ?_, ?_, ?_⟩
      · simp only [genEntries, hpairs, hbuild, hn, hg]
      · simp [refMethods, Method.skel, hm]
      · simp only [List.map_append, hnskel, hx, refExtrasL, refExtrasV,
          refSkel, Option.getD]
    | other n =>
      refine ⟨⟨snake k, [], Ret.none, Body.nothing⟩ :: ms, ex, ?_, ?_, ?_⟩
      · simp only [genEntries, hg]
      · simp [refMethods, Method.skel, hm]
      · simp [refExtrasL, refExtrasV, hx]

theorem genImpl_ok :
    ∀ (fuel : Nat) {langs : List Lang} {store : List (Lang × Toml)}
      {sn : Option String} {ie ns : Bool} {l0 : Lang} {d0 : Toml},
      langs = store.map (fun q => q.1) → storeSorted store →
      (∀ q ∈ store, wfT q.2 = true) → store.head? = some (l0, d0) →
      (∀ q ∈ store, coversT d0 q.2 = true) → depthL d0 < fuel →
      ∃ items, genImpl fuel langs store sn ie ns = .ok items ∧
        items.map GenItem.skel = refSkel sn ns d0 := by
  intro fuel
  induction fuel with
  | zero =>
    intro _ _ _ _ _ _ _ _ _ _ _ hfuel
    omega
  | succ f ihf =>
    intro langs store sn ie ns l0 d0 hl hsort hwf hhead hcov hfuel
    have hkn : keysNodup d0 = true :=
      keysNodup_of_wfT (hwf _ (head_mem_of_head? hhead))
    have hcovE : ∀ e ∈ d0, ∀ q ∈ store, coversE e.1 e.2 q.2 = true := by
      intro e hee q hq
      exact (coversT_iff d0 q.2).mp (hcov q hq) e hee
    obtain ⟨ms, ex, hg, hm, hx⟩ :=
      genEntries_ok sn ie f hl hsort hwf hhead hkn (by omega)
        (fun st sn2 l0' d0' h1 h2 h3 h4 h5 h6 =>
          ihf h1.symm h2 h3 h4 h5 h6)
        (fun e hee => hee) hcovE
    refine ⟨⟨sn.getD "Language", ns, ms⟩ :: ex, ?_, ?_⟩
    · simp only [genImpl, hhead, hg]
    · simp [GenItem.skel, refSkel, hm, hx]

theorem genEntries_inv
    (sn : Option String) (ie : Bool)
    {langs : List Lang} {store : List (Lang × Toml)}
    {recurse : List (Lang × Toml) → Option String → Bool → Bool →
      Except String (List GenItem)}
    {l0 : Lang} {d0 : Toml}
    (hl : langs = store.map (fun q => q.1))
    (hsort : storeSorted store)
    (hwf : ∀ q ∈ store, wfT q.2 = true)
    (hhead : store.head? = some (l0, d0))
    (hkn : keysNodup d0 = true)
    (hrec : ∀ st (sn2 : String) items2 (l0' : Lang) (d0' : Toml),
      recurse st (some sn2) false true = .ok items2 →
      st.map (fun q => q.1) = langs → storeSorted st →
      (∀ q ∈ st, wfT q.2 = true) → st.head? = some (l0', d0') →
      (∀ q ∈ st, coversT d0' q.2 = true) ∧
        items2.map GenItem.skel = refSkel (some sn2) true d0') :
    ∀ {entries : Toml} {ms : List Method} {ex : List GenItem},
      genEntries langs store sn ie recurse entries = .ok (ms, ex) →
      (∀ e ∈ entries, e ∈ d0) →
      (∀ e ∈ entries, ∀ q ∈ store, coversE e.1 e.2 q.2 = true) ∧
        ms.map Method.skel = refMethods sn entries ∧
        ex.map GenItem.skel = refExtrasL sn entries := by
  intro entries
  induction entries with
  | nil =>
    intro ms ex hok _
    cases hok
    exact ⟨fun e hee => absurd hee (List.not_mem_nil _), rfl, rfl⟩
  | cons e rest ih =>
    intro ms ex hok he
    obtain ⟨k, v⟩ := e
    cases v with
    | str s =>
      simp only [genEntries] at hok
      cases harms : collectArms store k (!(argsOf s).isEmpty) langs with
      | error e2 => simp only [harms] at hok; cases hok
      | ok arms =>
        simp only [harms] at hok
        cases hrest : genEntries langs store sn ie recurse rest with
        | error e2 => simp only [hrest] at hok; cases hok
        | ok p =>
          obtain ⟨ms2, ex2⟩ := p
          simp only [hrest] at hok
          cases hok
          obtain ⟨hcvr, hm2, hx2⟩ :=
            ih hrest (fun x hx2 => he x (List.mem_cons_of_mem _ hx2))
          refine ⟨?_, ?_, ?_⟩
          · intro x hx2 q hq
            rcases List.mem_cons.mp hx2 with h | h
            · subst h
              obtain ⟨d, s2, hld, hk⟩ := of_collectArms_ok harms q.1 (by
                rw [hl]; exact List.mem_map_of_mem _ hq)
              have : lookupL store q.1 = some q.2 :=
                lookupL_eq_of_mem hsort (by obtain ⟨a, b⟩ := q; exact hq)
              rw [this] at hld
              cases hld
              exact coversE_str_of hk
            · exact hcvr x h q hq
          · simp [refMethods, Method.skel, hm2]
          · simp [refExtrasL, refExtrasV, hx2]
    | table t =>
      simp only [genEntries] at hok
      cases hpairs : collectTbls store k langs with
      | error e2 => simp only [hpairs] at hok; cases hok
      | ok pairs =>
        simp only [hpairs] at hok
        cases hn : recurse (buildStore pairs) (some (childName sn k))
            false true with
        | error e2 => simp only [hn] at hok; cases hok
        | ok nested =>
          simp only [hn] at hok
          cases hrest : genEntries langs store sn ie recurse rest with
          | error e2 => simp only [hrest] at hok; cases hok
          | ok p =>
            obtain ⟨ms2, ex2⟩ := p
            simp only [hrest] at hok
            cases hok
            obtain ⟨hmap, hpt⟩ := of_collectTbls_ok hpairs
            have hps : storeSorted pairs := pairs_sorted hl hsort hmap
            have hbuild : buildStore pairs = pairs := buildStore_sorted_id hps
            rw [hbuild] at hn
            have hmemk : (k, Value.table t) ∈ d0 :=
              he (k, Value.table t) (List.mem_cons_self _ _)
            have hph : pairs.head? = some (l0, t) :=
              pairs_head hl hhead hkn hmemk hmap hpt
            obtain ⟨hpcov, hnskel⟩ :=
              hrec pairs (childName sn k) nested l0 t hn hmap hps
                (pairs_wf hwf hpt) hph
            obtain ⟨hcvr, hm2, hx2⟩ :=
              ih hrest (fun x hx2 => he x (List.mem_cons_of_mem _ hx2))
            refine ⟨?_, ?_, ?_⟩
            · intro x hx2 q hq
              rcases List.mem_cons.mp hx2 with h | h
              · subst h
                exact coversE_of_pairs hl hsort hmap hpt hpcov q hq
              · exact hcvr x h q hq
            · simp [refMethods, Method.skel, hm2]
            · simp only [List.map_append, hnskel, hx2, refExtrasL,
                refExtrasV, refSkel, Option.getD]
    | other n =>
      simp only [genEntries] at hok
      cases hrest : genEntries langs store sn ie recurse rest with
      | error e2 => simp only [hrest] at hok; cases hok
      | ok p =>
        obtain ⟨ms2, ex2⟩ := p
        simp only [hrest] at hok
        cases hok
        obtain ⟨hcvr, hm2, hx2⟩ :=
          ih hrest (fun x hx2 => he x (List.mem_cons_of_mem _ hx2))
        refine ⟨?_, ?_, ?_⟩
        · intro x hx2 q hq
          rcases List.mem_cons.mp hx2 with h | h
          · subst h; rfl
          · exact hcvr x h q hq
        · simp [refMethods, Method.skel, hm2]
        · simp [refExtrasL, refExtrasV, hx2]

theorem genImpl_inv :
    ∀ (fuel : Nat) {langs : List Lang} {store : List (Lang × Toml)}
      {sn : Option String} {ie ns : Bool} {items : List GenItem}
      {l0 : Lang} {d0 : Toml},
      genImpl fuel langs store sn ie ns = .ok items →
      langs = store.map (fun q => q.1) → storeSorted store →
      (∀ q ∈ store, wfT q.2 = true) → store.head? = some (l0, d0) →
      (∀ q ∈ store, coversT d0 q.2 = true) ∧
        items.map GenItem.skel = refSkel sn ns d0 := by
  intro fuel
  induction fuel with
  | zero => intro _ _ _ _ _ _ _ _ hok; cases hok
  | succ f ihf =>
    intro langs store sn ie ns items l0 d0 hok hl hsort hwf hhead
    have hkn : keysNodup d0 = true :=
      keysNodup_of_wfT (hwf _ (head_mem_of_head? hhead))
    simp only [genImpl, hhead] at hok
    cases hg : genEntries langs store sn ie
        (fun st sn2 ie2 ns2 => genImpl f langs st sn2 ie2 ns2) d0 with
    | error e2 => simp only [hg] at hok; cases hok
    | ok p =>
      obtain ⟨ms, ex⟩ := p
      simp only [hg] at hok
      cases hok
      obtain ⟨hcvr, hm, hx⟩ :=
        genEntries_inv sn ie hl hsort hwf hhead hkn
          (fun st sn2 items2 l0' d0' h0 h1 h2 h3 h4 =>
            ihf h0 h1.symm h2 h3 h4)
          hg (fun e hee => hee)
      refine ⟨?_, ?_⟩
      · intro q hq
        exact (coversT_iff d0 q.2).mpr (fun e hee => hcvr e hee q hq)
      · simp [GenItem.skel, refSkel, hm, hx]


/-! ### Lemmas: type names follow table paths -/

/-- The `struct_name` argument corresponding to a path prefix: `None` at the
root, otherwise the joined name of the prefix. -/
def snOf (q : List String) : Option String :=
  if q = [] then Option.none else some (nameOfPath q)

theorem joinSep_append_singleton :
    ∀ (xs : List String) (y : String), xs ≠ [] →
      joinSep (xs ++ [y]) = joinSep xs ++ "__" ++ y := by
  intro xs
  induction xs with
  | nil => intro y h; exact absurd rfl h
  | cons x rest ih =>
    intro y _
    cases rest with
    | nil => rfl
    | cons a rest2 =>
      have h2 := ih y (List.cons_ne_nil a rest2)
      have e1 : joinSep ((x :: a :: rest2) ++ [y]) =
          x ++ "__" ++ joinSep ((a :: rest2) ++ [y]) := rfl
      have e2 : joinSep (x :: a :: rest2) =
          x ++ "__" ++ joinSep (a :: rest2) := rfl
      rw [e1, e2, h2]
      simp [String.append_assoc]

theorem childName_nameOfPath (q : List String) (k : String) :
    childName (snOf q) k = nameOfPath (q ++ [k]) := by
  cases q with
  | nil => simp [snOf, childName, nameOfPath, joinSep]
  | cons a rest =>
    have hne : (a :: rest) ≠ ([] : List String) := by simp
    simp only [snOf, if_neg hne, childName, nameOfPath, List.map_append,
      List.map_cons, List.map_nil]
    rw [joinSep_append_singleton _ _ (by simp)]

theorem snOf_append (q : List String) (k : String) :
    snOf (q ++ [k]) = some (childName (snOf q) k) := by
  have h1 : snOf (q ++ [k]) = some (nameOfPath (q ++ [k])) := by
    simp [snOf]
  rw [h1, childName_nameOfPath q k]

theorem refExtras_names :
    ∀ (n : Nat) (t : Toml), depthL t ≤ n → ∀ (q : List String),
      (refExtrasL (snOf q) t).map (fun i => i.tyName) =
        (tablePathsL t).map (fun p => nameOfPath (q ++ p)) := by
  intro n
  induction n with
  | zero =>
    intro t
    induction t with
    | nil => intro _ _; rfl
    | cons e rest ih =>
      obtain ⟨k, v⟩ := e
      intro hd q
      have hr : depthL rest ≤ 0 := by
        simp only [depthL] at hd; omega
      cases v with
      | table t2 =>
        exfalso
        have h1 : depthV (Value.table t2) = depthL t2 + 1 := rfl
        simp only [depthL, h1] at hd
        omega
      | str s =>
        simp only [refExtrasL, refExtrasV, tablePathsL, tablePathsV,
          List.nil_append]
        exact ih hr q
      | other m2 =>
        simp only [refExtrasL, refExtrasV, tablePathsL, tablePathsV,
          List.nil_append]
        exact ih hr q
  | succ m ihm =>
    intro t
    induction t with
    | nil => intro _ _; rfl
    | cons e rest ih =>
      obtain ⟨k, v⟩ := e
      intro hd q
      have hr : depthL rest ≤ m + 1 := by
        simp only [depthL] at hd; omega
      cases v with
      | table t2 =>
        have ht2 : depthL t2 ≤ m := by
          have h1 : depthV (Value.table t2) = depthL t2 + 1 := rfl
          simp only [depthL, h1] at hd
          omega
        simp only [refExtrasL, refExtrasV, tablePathsL, tablePathsV,
          List.map_append, List.map_cons]
        rw [← snOf_append q k, ihm t2 ht2 (q ++ [k]), ih hr q,
          childName_nameOfPath q k, List.map_map]
        refine congrArg (fun z => nameOfPath (q ++ [k]) :: z) ?_
        refine congrArg (fun z => z ++
          (tablePathsL rest).map (fun p => nameOfPath (q ++ p))) ?_
        refine List.map_congr_left ?_
        intro p _
        simp [List.append_assoc]
      | str s =>
        simp only [refExtrasL, refExtrasV, tablePathsL, tablePathsV,
          List.nil_append]
        exact ih hr q
      | other m2 =>
        simp only [refExtrasL, refExtrasV, tablePathsL, tablePathsV,
          List.nil_append]
        exact ih hr q

theorem refSkel_names (t : Toml) :
    (refSkel Option.none false t).map (fun i => i.tyName) =
      "Language" :: (tablePathsL t).map nameOfPath := by
  have h0 : snOf [] = Option.none := by simp [snOf]
  have := refExtras_names (depthL t) t (le_refl _) []
  rw [h0] at this
  simp only [refSkel, List.map_cons, this]
  rfl

/-! ### Lemmas: the legacy checker implies the design copy's criterion -/

theorem check_tables_coversT :
    ∀ (n : Nat) (t : Toml), depthL t ≤ n → ∀ (d : Toml),
      check_tables t d = true → coversT t d = true := by
  intro n
  induction n with
  | zero =>
    intro t
    induction t with
    | nil => intro _ d _; rfl
    | cons e rest ih =>
      obtain ⟨k, v⟩ := e
      intro hd d hc
      have hr : depthL rest ≤ 0 := by
        simp only [depthL] at hd; omega
      simp only [check_tables, Bool.and_eq_true] at hc
      obtain ⟨hc1, hc2⟩ := hc
      simp only [coversT, Bool.and_eq_true]
      refine ⟨?_, ih hr d hc2⟩
      cases hl : lookupT d k with
      | none => rw [hl] at hc1; cases hc1
      | some w =>
        rw [hl] at hc1
        cases v with
        | table t2 =>
          exfalso
          have h1 : depthV (Value.table t2) = depthL t2 + 1 := rfl
          simp only [depthL, h1] at hd
          omega
        | str s =>
          cases w with
          | str s2 => exact coversE_str_of hl
          | table t2 => simp [check_value, Value.same_type] at hc1
          | other m2 => simp [check_value, Value.same_type] at hc1
        | other n2 => rfl
  | succ m ihm =>
    intro t
    induction t with
    | nil => intro _ d _; rfl
    | cons e rest ih =>
      obtain ⟨k, v⟩ := e
      intro hd d hc
      have hr : depthL rest ≤ m + 1 := by
        simp only [depthL] at hd; omega
      simp only [check_tables, Bool.and_eq_true] at hc
      obtain ⟨hc1, hc2⟩ := hc
      simp only [coversT, Bool.and_eq_true]
      refine ⟨?_, ih hr d hc2⟩
      cases hl : lookupT d k with
      | none => rw [hl] at hc1; cases hc1
      | some w =>
        rw [hl] at hc1
        cases v with
        | table t2 =>
          have ht2 : depthL t2 ≤ m := by
            have h1 : depthV (Value.table t2) = depthL t2 + 1 := rfl
            simp only [depthL, h1] at hd
            omega
          cases w with
          | str s2 => simp [check_value, Value.same_type] at hc1
          | table rt =>
            simp only [check_value] at hc1
            exact coversE_table_of hl (ihm t2 ht2 rt hc1)
          | other m2 => simp [check_value, Value.same_type] at hc1
        | str s =>
          cases w with
          | str s2 => exact coversE_str_of hl
          | table t2 => simp [check_value, Value.same_type] at hc1
          | other m2 => simp [check_value, Value.same_type] at hc1
        | other n2 => rfl

/-! ### Lemmas: membership in the built store -/

theorem buildStore_mem :
    ∀ {l : List (Lang × Toml)} {q : Lang × Toml},
      q ∈ buildStore l → q ∈ l := by
  have haux : ∀ (l acc : List (Lang × Toml)) (q : Lang × Toml),
      q ∈ List.foldl (fun m p => btInsert p m) acc l →
      q ∈ acc ∨ q ∈ l := by
    intro l
    induction l with
    | nil => intro acc q h; exact Or.inl h
    | cons x rest ih =>
      intro acc q h
      rcases ih (btInsert x acc) q h with h2 | h2
      · rcases btInsert_mem h2 with h3 | h3
        · exact Or.inr (h3 ▸ List.mem_cons_self _ _)
        · exact Or.inl h3
      · exact Or.inr (List.mem_cons_of_mem _ h2)
  intro l q h
  rcases haux l [] q h with h2 | h2
  · cases h2
  · exact h2

theorem head_min_of_sorted {store : List (Lang × Toml)} {l0 : Lang}
    {d0 : Toml} (hsort : storeSorted store)
    (hhead : store.head? = some (l0, d0)) :
    ∀ q ∈ store, q = (l0, d0) ∨ strLt l0.inner q.1.inner = true := by
  cases store with
  | nil => cases hhead
  | cons p rest =>
    simp only [List.head?] at hhead
    cases hhead
    intro q hq
    rcases List.mem_cons.mp hq with h | h
    · exact Or.inl h
    · exact Or.inr ((List.pairwise_cons.mp hsort).1 q h)

/-! ### Claim-level facts -/

theorem generate_mod_eq (fuel : Nat) (inputs : List (Lang × Toml))
    (fb : Option Lang) :
    generate_mod fuel inputs fb =
      match genImpl fuel ((buildStore inputs).map (fun q => q.1))
          (buildStore inputs) Option.none true false with
      | .error e => .error e
      | .ok items =>
        .ok ⟨inputs.map (fun p => p.1.enum_variant),
          inputs.map (fun p => (p.1.inner, p.1.enum_variant)),
          items, fb.map (fun l => l.enum_variant)⟩ := rfl

/-- A reference document's table for the C1/C3 concrete stores. -/
def docNested : Toml := [("nested", Value.table [("hello", Value.str "hi")])]

/-- A document missing the nested key `hello`. -/
def docNestedEmpty : Toml := [("nested", Value.table [])]

/-- C1 — counterexample.  At a store whose language `zz` lacks the key
`hello` at path `nested.hello`, the design copy fails with the message
`invalid string key hello`, which mentions neither the language `zz` nor the
enclosing path segment `nested`; the legacy copy's checker message names the
language but not the path either.  Moreover a missing key whose reference
value is not a string or table (here an integer) is not detected at all:
generation succeeds.  Both refute "generation fails reporting that exact
path and the language L" for every missing key. -/
theorem C1_counterexample :
    generate_mod 5 [(Lang.new "aa", docNested), (Lang.new "zz", docNestedEmpty)]
        Option.none = .error "invalid string key hello" ∧
    containsSub ("zz".data) ("invalid string key hello".data) = false ∧
    containsSub ("nested".data) ("invalid string key hello".data) = false ∧
    (generate_mod 5 [(Lang.new "aa", [("n", Value.other 0)]),
        (Lang.new "zz", [])] Option.none).isOk = true ∧
    legacyCheckAll docNested [("zz", docNestedEmpty)] =
      .error "language zz's translation file is not in the right format" ∧
    containsSub ("nested".data)
      ("language zz's translation file is not in the right format".data) =
      false := by
  refine ⟨rfl, by decide, by decide, rfl, rfl, by decide⟩

/-- C1 — amended.  Generation (design copy) is all-or-nothing: it returns
accessor code exactly when, for every key of the reference document whose
value is a string or a table, every language's document holds that key with
the same kind at the same path (`coversT`); on any violation it returns an
error and emits nothing, but the diagnostic names only the immediate key
(design copy) or only the language (legacy checker), never the full path. -/
theorem C1_amended (fuel : Nat) (inputs : List (Lang × Toml))
    (fb : Option Lang) (l0 : Lang) (d0 : Toml)
    (hwf : ∀ q ∈ inputs, wfT q.2 = true)
    (hhead : (buildStore inputs).head? = some (l0, d0))
    (hfuel : depthL d0 < fuel) :
    (generate_mod fuel inputs fb).isOk = true ↔
      ∀ q ∈ buildStore inputs, coversT d0 q.2 = true := by
  have hsort := buildStore_sorted inputs
  have hwf2 : ∀ q ∈ buildStore inputs, wfT q.2 = true :=
    fun q hq => hwf q (buildStore_mem hq)
  rw [generate_mod_eq]
  cases h : genImpl fuel ((buildStore inputs).map (fun q => q.1))
      (buildStore inputs) Option.none true false with
  | ok items =>
    constructor
    · intro _
      exact (genImpl_inv fuel h rfl hsort hwf2 hhead).1
    · intro _
      rfl
  | error e =>
    constructor
    · intro hfalse
      cases hfalse
    · intro hcov
      obtain ⟨items, hok, _⟩ :=
        genImpl_ok fuel rfl hsort hwf2 hhead hcov hfuel
      rw [hok] at h
      cases h

/-- C1 — witness for the amended theorem, at the concrete store of the
counterexample (where the criterion indeed fails, so generation errors). -/
theorem C1_amended_witness :
    (∀ q ∈ [(Lang.new "aa", docNested), (Lang.new "zz", docNestedEmpty)],
      wfT q.2 = true) ∧
    ((generate_mod 5 [(Lang.new "aa", docNested),
        (Lang.new "zz", docNestedEmpty)] Option.none).isOk = true ↔
      ∀ q ∈ buildStore [(Lang.new "aa", docNested),
        (Lang.new "zz", docNestedEmpty)], coversT docNested q.2 = true) :=
  ⟨by decide,
   C1_amended 5 [(Lang.new "aa", docNested), (Lang.new "zz", docNestedEmpty)]
     Option.none (Lang.new "aa") docNested (by decide) rfl (by decide)⟩

/-- C2 — evaluation at the failing input.  For the reference template
`"{x} {x}"` the generated method's formal parameter list is `["x", "x"]`:
the source collects every regex capture without deduplication, so the
duplicated placeholder yields two formal parameters with the same name
(invalid generated Rust), where the claim requires duplicates to collapse
to one.  The second conjunct confirms the claim's empty-list half: with no
placeholders the method takes no parameters and returns the borrowed
literal template. -/
theorem C2_code_eval :
    (genImpl 2 [Lang.new "en"]
        [(Lang.new "en", [("greet", Value.str "\x7bx\x7d \x7bx\x7d")])]
        Option.none true false).map
        (fun items => items.map (fun g => g.methods.map (fun m => m.params))) =
      .ok [[["x", "x"]]] ∧
    genImpl 2 [Lang.new "en"]
        [(Lang.new "en", [("hello", Value.str "Hello!")])]
        Option.none true false =
      .ok [⟨"Language", false, [⟨"hello", [], Ret.cow,
        Body.strMatch true [("En", StrRet.borrowed "Hello!")]⟩]⟩] :=
  ⟨rfl, rfl⟩

/-- C3 — counterexample.  With languages `ab` and `zz` and fallback `zz`,
every document covers the fallback's document (it is empty), so under the
claim the reference would be `zz`'s document and generation would succeed;
the code instead uses the smallest raw tag `ab` as reference and fails.
With no fallback and languages `B` and `a`, the lexicographically smallest
normalized tag is `a` (whose empty document covers everything), yet the
code picks `B` (raw byte order puts uppercase first) and fails. -/
theorem C3_counterexample :
    generate_mod 5 [(Lang.new "ab", [("k", Value.str "v")]),
        (Lang.new "zz", [])] (some (Lang.new "zz")) =
      .error "invalid string key k" ∧
    coversT [] [("k", Value.str "v")] = true ∧
    coversT ([] : Toml) [] = true ∧
    generate_mod 5 [(Lang.new "B", [("k", Value.str "v")]),
        (Lang.new "a", [])] Option.none = .error "invalid string key k" ∧
    String.mk ("B".data.map asciiLower) = "b" ∧
    strLt "a" "b" = true := by
  refine ⟨rfl, rfl, rfl, rfl, by decide, by decide⟩

/-- C3 — amended.  The fallback never influences the reference choice: the
enum members, parse arms and accessor impls of `generate_mod` are identical
with and without a configured fallback.  The reference document actually
used is the one stored under the raw-smallest language tag: the head of the
`BTreeMap` is minimal in raw byte order, and on success the emitted
skeleton (type names, method names, parameters, return types) is that of
the head document. -/
theorem C3_amended (fuel : Nat) (inputs : List (Lang × Toml))
    (fb : Option Lang) :
    ((generate_mod fuel inputs fb).map
        (fun o => (o.enumMembers, o.fromStrArms, o.items)) =
      (generate_mod fuel inputs Option.none).map
        (fun o => (o.enumMembers, o.fromStrArms, o.items))) ∧
    (∀ (l0 : Lang) (d0 : Toml), (buildStore inputs).head? = some (l0, d0) →
      ∀ q ∈ buildStore inputs, q = (l0, d0) ∨
        strLt l0.inner q.1.inner = true) ∧
    (∀ (out : ModOut) (l0 : Lang) (d0 : Toml),
      generate_mod fuel inputs fb = .ok out →
      (∀ q ∈ inputs, wfT q.2 = true) →
      (buildStore inputs).head? = some (l0, d0) →
      out.items.map GenItem.skel = refSkel Option.none false d0) := by
  refine ⟨?_, ?_, ?_⟩
  · rw [generate_mod_eq, generate_mod_eq]
    cases h : genImpl fuel ((buildStore inputs).map (fun q => q.1))
        (buildStore inputs) Option.none true false with
    | ok items => rfl
    | error e => rfl
  · intro l0 d0 hhead
    exact head_min_of_sorted (buildStore_sorted inputs) hhead
  · intro out l0 d0 hok hwf hhead
    rw [generate_mod_eq] at hok
    cases h : genImpl fuel ((buildStore inputs).map (fun q => q.1))
        (buildStore inputs) Option.none true false with
    | error e => rw [h] at hok; cases hok
    | ok items =>
      rw [h] at hok
      cases hok
      exact (genImpl_inv fuel h rfl (buildStore_sorted inputs)
        (fun q hq => hwf q (buildStore_mem hq)) hhead).2

/-- C3 — witness for the amended theorem, at a concrete two-language store
with a configured fallback `zz` whose reference nevertheless is `aa`. -/
theorem C3_amended_witness :
    ((generate_mod 3 [(Lang.new "zz", [("k", Value.str "v")]),
        (Lang.new "aa", [("k", Value.str "v")])] (some (Lang.new "zz"))).map
        (fun o => (o.enumMembers, o.fromStrArms, o.items)) =
      (generate_mod 3 [(Lang.new "zz", [("k", Value.str "v")]),
        (Lang.new "aa", [("k", Value.str "v")])] Option.none).map
        (fun o => (o.enumMembers, o.fromStrArms, o.items))) ∧
    ((Lang.new "zz", ([("k", Value.str "v")] : Toml)) =
        (Lang.new "aa", ([("k", Value.str "v")] : Toml)) ∨
      strLt (Lang.new "aa").inner (Lang.new "zz").inner = true) := by
  have h := C3_amended 3 [(Lang.new "zz", [("k", Value.str "v")]),
    (Lang.new "aa", [("k", Value.str "v")])] (some (Lang.new "zz"))
  refine ⟨h.1, ?_⟩
  refine h.2.1 (Lang.new "aa") [("k", Value.str "v")] rfl
    (Lang.new "zz", [("k", Value.str "v")]) ?_
  exact List.mem_cons_of_mem _ (List.mem_cons_self _ _)

/-- C4 — evaluation at the failing input.  The source's character class is
`[a-zA-z\d_]` (a typo for `A-Z`), so the caret is accepted inside a
placeholder: on `"{a^}"` the extractor returns `["a^"]`, while by the claim
(identifier class `[A-Za-z0-9_]`) the braces are malformed and must be
treated as literal text, yielding `[]`.  The extractor never fails and
returns `[]` when no placeholder occurs, as the remaining conjuncts show. -/
theorem C4_code_eval :
    argsOf "\x7ba^\x7d" = ["a^"] ∧
    argsOfSpec "\x7ba^\x7d" = [] ∧
    argChar (Char.ofNat 94) = true ∧
    strictArgChar (Char.ofNat 94) = false ∧
    argsOf "no placeholders" = [] ∧
    argsOf "Hello \x7bname\x7d!" = ["name"] ∧
    argsOfSpec "Hello \x7bname\x7d!" = ["name"] := by
  decide

/-- C5 — counterexample.  Two distinct sibling table keys `foo_bar` and
`FooBar` are distinct paths of the schema tree, but both Pascal-case to
`FooBar`, so the generator emits two accessor types with the same joined
name: the naming is not globally injective. -/
theorem C5_counterexample :
    (genImpl 3 [Lang.new "en"]
        [(Lang.new "en", [("foo_bar", Value.table [("a", Value.str "x")]),
          ("FooBar", Value.table [("a", Value.str "y")])])]
        Option.none true false).map
        (fun items => items.map (fun g => g.tyName)) =
      .ok ["Language", "FooBar", "FooBar"] ∧
    ("foo_bar" : String) ≠ "FooBar" ∧
    tablePathsL [("foo_bar", Value.table [("a", Value.str "x")]),
        ("FooBar", Value.table [("a", Value.str "y")])] =
      [["foo_bar"], ["FooBar"]] ∧
    nameOfPath ["foo_bar"] = nameOfPath ["FooBar"] := by
  refine ⟨rfl, by decide, rfl, by decide⟩

/-- C5 — amended.  The generated nested-accessor type name for every table
node is the path's segments (root excluded), each converted to Pascal case,
joined by the fixed separator `"__"`, in generation order; but the naming
is not injective, since Pascal-casing identifies distinct keys such as
`foo_bar` and `FooBar`. -/
theorem C5_amended (fuel : Nat) (inputs : List (Lang × Toml))
    (fb : Option Lang) (out : ModOut) (l0 : Lang) (d0 : Toml)
    (hok : generate_mod fuel inputs fb = .ok out)
    (hwf : ∀ q ∈ inputs, wfT q.2 = true)
    (hhead : (buildStore inputs).head? = some (l0, d0)) :
    out.items.map (fun g => g.tyName) =
      "Language" :: (tablePathsL d0).map nameOfPath := by
  have hskel : out.items.map GenItem.skel = refSkel Option.none false d0 := by
    rw [generate_mod_eq] at hok
    cases h : genImpl fuel ((buildStore inputs).map (fun q => q.1))
        (buildStore inputs) Option.none true false with
    | error e => rw [h] at hok; cases hok
    | ok items =>
      rw [h] at hok
      cases hok
      exact (genImpl_inv fuel h rfl (buildStore_sorted inputs)
        (fun q hq => hwf q (buildStore_mem hq)) hhead).2
  have h1 : out.items.map (fun g => g.tyName) =
      (out.items.map GenItem.skel).map (fun i => i.tyName) := by
    rw [List.map_map]
    rfl
  rw [h1, hskel, refSkel_names]

/-- C5 — witness for the amended theorem, at a concrete nested store. -/
theorem C5_amended_witness :
    ((generate_mod 3 [(Lang.new "en",
        [("nested", Value.table [("hello", Value.str "hi")])])]
      Option.none).isOk = true) ∧
    (∀ out, generate_mod 3 [(Lang.new "en",
        [("nested", Value.table [("hello", Value.str "hi")])])]
        Option.none = .ok out →
      out.items.map (fun g => g.tyName) =
        "Language" :: (tablePathsL [("nested",
          Value.table [("hello", Value.str "hi")])]).map nameOfPath) := by
  refine ⟨rfl, ?_⟩
  intro out hok
  exact C5_amended 3 _ Option.none out (Lang.new "en") _ hok (by decide) rfl

/-- C6 — counterexample.  The raw tags `En` and `en` differ only in letter
case, yet the resulting `Lang` values are not equal (derived equality is on
the raw string, with no normalization), and inserting both into the
language store keeps two separate entries rather than colliding them into
a single language. -/
theorem C6_counterexample :
    Lang.new "En" ≠ Lang.new "en" ∧
    (buildStore [(Lang.new "En", []), (Lang.new "en", [])]).length = 2 := by
  decide

/-- C6 — amended.  `Lang` equality is equality of the raw tag string, with
no case normalization; raw tags that differ at all — including two case
variants of the same tag — are distinct languages and occupy two separate
entries of the store. -/
theorem C6_amended :
    (∀ a b : String, Lang.new a = Lang.new b ↔ a = b) ∧
    (∀ (a b : String) (d1 d2 : Toml), a ≠ b →
      (buildStore [(Lang.new a, d1), (Lang.new b, d2)]).length = 2) := by
  constructor
  · intro a b
    constructor
    · intro h
      exact congrArg Lang.inner h
    · intro h
      rw [h]
  · intro a b d1 d2 hne
    have h1 : buildStore [(Lang.new a, d1), (Lang.new b, d2)] =
        btInsert (Lang.new b, d2) [(Lang.new a, d1)] := rfl
    rw [h1]
    unfold btInsert
    by_cases hlt : strLt (Lang.new b, d2).1.inner (Lang.new a, d1).1.inner = true
    · rw [if_pos hlt]
      rfl
    · rw [if_neg hlt]
      have hne2 : ¬ (Lang.new b, d2).1.inner = (Lang.new a, d1).1.inner := by
        intro hc
        exact hne (congrArg id hc).symm
      rw [if_neg hne2]
      rfl

/-- C6 — witness for the amended theorem at the case pair `En` / `en`. -/
theorem C6_amended_witness :
    ((Lang.new "En" = Lang.new "en") ↔ ("En" : String) = "en") ∧
    (buildStore [(Lang.new "AA", []), (Lang.new "aa", [])]).length = 2 :=
  ⟨C6_amended.1 "En" "en", C6_amended.2 "AA" "aa" [] [] (by decide)⟩

/-- C7 — counterexample.  The same two documents presented in two different
enumeration orders (a permutation of the same set) generate different
output: the `Language` enum's member order follows the input order, so the
generated output is not a function of the document set alone. -/
theorem C7_counterexample :
    [(Lang.new "aa", [("k", Value.str "v")]),
     (Lang.new "bb", [("k", Value.str "w")])].Perm
      [(Lang.new "bb", [("k", Value.str "w")]),
       (Lang.new "aa", [("k", Value.str "v")])] ∧
    (generate_mod 3 [(Lang.new "aa", [("k", Value.str "v")]),
        (Lang.new "bb", [("k", Value.str "w")])] Option.none).map
      (fun o => o.enumMembers) = .ok ["Aa", "Bb"] ∧
    (generate_mod 3 [(Lang.new "bb", [("k", Value.str "w")]),
        (Lang.new "aa", [("k", Value.str "v")])] Option.none).map
      (fun o => o.enumMembers) = .ok ["Bb", "Aa"] ∧
    (["Aa", "Bb"] : List String) ≠ ["Bb", "Aa"] := by
  refine ⟨List.Perm.swap _ _ _, rfl, rfl, by decide⟩

/-- C7 — amended.  Generation is a pure function of the input document
sequence; up to a permutation of that sequence (with distinct raw tags)
everything except the enum member order and parse-arm order is identical:
the accessor impls and the Default impl depend only on the document set,
because the generator works over the key-sorted document map. -/
theorem C7_amended (fuel : Nat) (l1 l2 : List (Lang × Toml))
    (fb : Option Lang) (hperm : l1.Perm l2)
    (hnd : (l1.map (fun q => q.1.inner)).Nodup) :
    (generate_mod fuel l1 fb).map (fun o => (o.items, o.defaultImpl)) =
      (generate_mod fuel l2 fb).map (fun o => (o.items, o.defaultImpl)) := by
  have hb : buildStore l1 = buildStore l2 := buildStore_eq_of_perm hperm hnd
  rw [generate_mod_eq, generate_mod_eq, hb]
  cases h : genImpl fuel ((buildStore l2).map (fun q => q.1)) (buildStore l2)
      Option.none true false with
  | error e => rfl
  | ok items => rfl

/-- C7 — witness for the amended theorem at a concrete two-document set. -/
theorem C7_amended_witness :
    ([(Lang.new "aa", ([("k", Value.str "v")] : Toml)),
      (Lang.new "bb", [("k", Value.str "w")])].map
        (fun q => q.1.inner)).Nodup ∧
    (generate_mod 3 [(Lang.new "aa", [("k", Value.str "v")]),
        (Lang.new "bb", [("k", Value.str "w")])] Option.none).map
        (fun o => (o.items, o.defaultImpl)) =
      (generate_mod 3 [(Lang.new "bb", [("k", Value.str "w")]),
        (Lang.new "aa", [("k", Value.str "v")])] Option.none).map
        (fun o => (o.items, o.defaultImpl)) :=
  ⟨by decide, C7_amended 3 _ _ Option.none (List.Perm.swap _ _ _) (by decide)⟩

/-- C8: when every key of the reference document (the head of the sorted
store) exists with the same value kind in every language's document at
every path — the `check_tables` criterion, which never looks at keys absent
from the reference — generation succeeds, and the emitted skeleton (every
type name, method name, parameter list and return type) is a function of
the reference document alone: extra keys in non-reference documents
produce no accessor method and cause no error. -/
theorem C8_theorem (fuel : Nat) (inputs : List (Lang × Toml))
    (fb : Option Lang) (l0 : Lang) (d0 : Toml)
    (hwf : ∀ q ∈ inputs, wfT q.2 = true)
    (hhead : (buildStore inputs).head? = some (l0, d0))
    (hfuel : depthL d0 < fuel)
    (hcheck : ∀ q ∈ buildStore inputs, check_tables d0 q.2 = true) :
    ∃ out, generate_mod fuel inputs fb = .ok out ∧
      out.items.map GenItem.skel = refSkel Option.none false d0 := by
  have hcov : ∀ q ∈ buildStore inputs, coversT d0 q.2 = true := fun q hq =>
    check_tables_coversT (depthL d0) d0 (le_refl _) q.2 (hcheck q hq)
  obtain ⟨items, hok, hskel⟩ :=
    genImpl_ok fuel rfl (buildStore_sorted inputs)
      (fun q hq => hwf q (buildStore_mem hq)) hhead hcov hfuel
  refine ⟨⟨inputs.map (fun p => p.1.enum_variant),
    inputs.map (fun p => (p.1.inner, p.1.enum_variant)), items,
    fb.map (fun l => l.enum_variant)⟩, ?_, hskel⟩
  rw [generate_mod_eq, hok]

/-- C8 — witness: a store whose non-reference document `zz` has an extra
key `extra`; the criterion holds, generation succeeds, and the skeleton is
exactly that of the reference document (no method for `extra`). -/
theorem C8_witness :
    (∀ q ∈ buildStore [(Lang.new "aa", [("greet", Value.str "hi")]),
        (Lang.new "zz", [("extra", Value.str "e"),
          ("greet", Value.str "hallo")])],
      check_tables [("greet", Value.str "hi")] q.2 = true) ∧
    (generate_mod 5 [(Lang.new "aa", [("greet", Value.str "hi")]),
        (Lang.new "zz", [("extra", Value.str "e"),
          ("greet", Value.str "hallo")])] Option.none).map
        (fun o => o.items.map GenItem.skel) =
      .ok (refSkel Option.none false [("greet", Value.str "hi")]) := by
  refine ⟨by decide, ?_⟩
  obtain ⟨out, hok, hskel⟩ :=
    C8_theorem 5 [(Lang.new "aa", [("greet", Value.str "hi")]),
      (Lang.new "zz", [("extra", Value.str "e"),
        ("greet", Value.str "hallo")])] Option.none (Lang.new "aa")
      [("greet", Value.str "hi")] (by decide) rfl (by decide) (by decide)
  rw [hok]
  simp only [Except.map]
  rw [hskel]

/-- C9: the generated parser (`FromStr`, also exposed as `parse_language`
and as `get_lang`) tries each discovered language's raw tag in order with
an ASCII-case-insensitive comparison: it returns the first matching
language's case for every text equal to some discovered tag up to ASCII
case, and `none` for every text matching no tag; `generate_mod` emits
exactly these parse arms. -/
theorem C9_theorem (inputs : List (Lang × Toml)) (s : String) :
    (get_lang (inputs.map (fun p => (p.1.inner, p.1.enum_variant))) s =
      parse_language
        (inputs.map (fun p => (p.1.inner, p.1.enum_variant))) s) ∧
    ((∃ q ∈ inputs, eqIgnoreAsciiCase s q.1.inner = true) →
      ∃ l : Lang, (∃ d, (l, d) ∈ inputs) ∧
        eqIgnoreAsciiCase s l.inner = true ∧
        parse_language
          (inputs.map (fun p => (p.1.inner, p.1.enum_variant))) s =
          some l.enum_variant) ∧
    ((∀ q ∈ inputs, eqIgnoreAsciiCase s q.1.inner = false) →
      parse_language
        (inputs.map (fun p => (p.1.inner, p.1.enum_variant))) s =
        Option.none) ∧
    (∀ fuel fb out, generate_mod fuel inputs fb = .ok out →
      out.fromStrArms = inputs.map (fun p => (p.1.inner, p.1.enum_variant)))
    := by
  refine ⟨rfl, ?_, ?_, ?_⟩
  · intro h
    induction inputs with
    | nil =>
      obtain ⟨q, hq, _⟩ := h
      cases hq
    | cons p rest ih =>
      obtain ⟨l, d⟩ := p
      by_cases hm : eqIgnoreAsciiCase s l.inner = true
      · refine ⟨l, ⟨d, List.mem_cons_self _ _⟩, hm, ?_⟩
        unfold parse_language
        rw [List.map_cons, List.find?_cons_of_pos _ (by simpa using hm)]
        rfl
      · have h2 : ∃ q ∈ rest, eqIgnoreAsciiCase s q.1.inner = true := by
          obtain ⟨q, hq, hcq⟩ := h
          rcases List.mem_cons.mp hq with he | he
          · rw [he] at hcq
            exact absurd hcq hm
          · exact ⟨q, he, hcq⟩
        obtain ⟨l2, ⟨d2, hmem⟩, hc2, hp2⟩ := ih h2
        refine ⟨l2, ⟨d2, List.mem_cons_of_mem _ hmem⟩, hc2, ?_⟩
        unfold parse_language at hp2 ⊢
        rw [List.map_cons, List.find?_cons_of_neg _ (by simpa using hm)]
        exact hp2
  · intro h
    induction inputs with
    | nil => rfl
    | cons p rest ih =>
      obtain ⟨l, d⟩ := p
      have hm : eqIgnoreAsciiCase s l.inner = false :=
        h (l, d) (List.mem_cons_self _ _)
      unfold parse_language
      rw [List.map_cons, List.find?_cons_of_neg _ (by simp [hm])]
      exact ih (fun q hq => h q (List.mem_cons_of_mem _ hq))
  · intro fuel fb out hok
    rw [generate_mod_eq] at hok
    cases h : genImpl fuel ((buildStore inputs).map (fun q => q.1))
        (buildStore inputs) Option.none true false with
    | error e => rw [h] at hok; cases hok
    | ok items =>
      rw [h] at hok
      cases hok
      rfl

/-- C9 — witness: with discovered tags `en` and `de`, the text `EN`
parses to the `en` case, and `no-such-lang` parses to nothing. -/
theorem C9_witness :
    (∃ l : Lang, (∃ d, (l, d) ∈ [(Lang.new "en", ([] : Toml)),
        (Lang.new "de", ([] : Toml))]) ∧
      eqIgnoreAsciiCase "EN" l.inner = true ∧
      parse_language ([(Lang.new "en", ([] : Toml)),
        (Lang.new "de", ([] : Toml))].map
          (fun p => (p.1.inner, p.1.enum_variant))) "EN" =
        some l.enum_variant) ∧
    parse_language ([(Lang.new "en", ([] : Toml)),
      (Lang.new "de", ([] : Toml))].map
        (fun p => (p.1.inner, p.1.enum_variant))) "no-such-lang" =
      Option.none := by
  refine ⟨?_, ?_⟩
  · exact (C9_theorem [(Lang.new "en", []), (Lang.new "de", [])] "EN").2.1
      ⟨(Lang.new "en", []), List.mem_cons_self _ _, by decide⟩
  · exact (C9_theorem [(Lang.new "en", []), (Lang.new "de", [])]
      "no-such-lang").2.2.1 (by decide)

/-- C10 — evaluation at the failing input.  With the single document `en`
and the configured fallback tag `eN`, the ASCII-case-insensitive existence
check passes and a `fallback()` accessor is emitted, but the generated
`Default` impl names the variant Pascal(`eN`) = `EN`, while the language's
selector accessor returns the variant Pascal(`en`) = `En`: the fallback
result is not that language's case (the generated code cannot even
compile, as the enum has no member `EN`).  The unknown-fallback error and
the absence of `fallback()` without configuration behave as claimed. -/
theorem C10_code_eval :
    (try_derive_i18n 3 [("en", [("hello", Value.str "hi")])]
        (some "eN")).map
        (fun d => (d.modOut.defaultImpl, d.accessors, d.hasFallbackFn)) =
      .ok (some "EN", [("en", "En")], true) ∧
    ("EN" : String) ≠ "En" ∧
    eqIgnoreAsciiCase "en" "eN" = true ∧
    (try_derive_i18n 3 [("en", [("hello", Value.str "hi")])]
        Option.none).map (fun d => d.hasFallbackFn) = .ok false ∧
    try_derive_i18n 3 [("en", [("hello", Value.str "hi")])] (some "fr") =
      .error "fallback language fr does not exist" := by
  refine ⟨rfl, by decide, by decide, rfl, rfl⟩

end Iioon
